import Mathlib

/-! Verification development for the string case-conversion utility
(src/utilities/StringUtility.ts).

Strings are modelled as lists of characters.  Each regular-expression
rewrite of the source is embedded as a structurally recursive scanner
producing the same output as the corresponding global replace.  The
JavaScript replacement-string escapes (dollar sequences) are modelled for
the separator substitution, because the source passes the caller-supplied
separator directly as a replacement string to String.replace. -/

/-- Characters matched by the JavaScript regular-expression class backslash-s
(whitespace), by code point. -/
def isJsWs (c : Char) : Bool :=
  (9 ≤ c.toNat && c.toNat ≤ 13) || c.toNat = 32 || c.toNat = 160 ||
    c.toNat = 5760 || (8192 ≤ c.toNat && c.toNat ≤ 8202) || c.toNat = 8232 ||
    c.toNat = 8233 || c.toNat = 8239 || c.toNat = 8287 || c.toNat = 12288 ||
    c.toNat = 65279

/-- The regex class [0-9] (same as backslash-d). -/
def isDigitC (c : Char) : Bool := 48 ≤ c.toNat && c.toNat ≤ 57

/-- The regex class [a-z]. -/
def isLowerC (c : Char) : Bool := 97 ≤ c.toNat && c.toNat ≤ 122

/-- The regex class [A-Z]. -/
def isUpperC (c : Char) : Bool := 65 ≤ c.toNat && c.toNat ≤ 90

/-- The regex class [a-zA-Z]. -/
def isAlphaC (c : Char) : Bool := isUpperC c || isLowerC c

/-- The regex class backslash-w, i.e. [A-Za-z0-9_]. -/
def isWordC (c : Char) : Bool := isAlphaC c || isDigitC c || c.toNat = 95

/-- ASCII lower-casing, the effect of JavaScript toLowerCase on the ASCII
strings this utility feeds to it. -/
def toLowerC (c : Char) : Char :=
  if 65 ≤ c.toNat ∧ c.toNat ≤ 90 then Char.ofNat (c.toNat + 32) else c

/-- ASCII upper-casing, the effect of JavaScript toUpperCase on the ASCII
strings this utility feeds to it. -/
def toUpperC (c : Char) : Char :=
  if 97 ≤ c.toNat ∧ c.toNat ≤ 122 then Char.ofNat (c.toNat - 32) else c

/-- Scanner for the rewrite replace(/(\d+)/g, ' $1 '): every maximal run of
digits is wrapped in a space before and a space after.  The flag records
whether the previous character was a digit. -/
def sdAux : Bool → List Char → List Char
  | prev, [] => if prev then [' '] else []
  | prev, c :: rest =>
    if isDigitC c then
      if prev then c :: sdAux true rest else ' ' :: c :: sdAux true rest
    else
      if prev then ' ' :: c :: sdAux false rest else c :: sdAux false rest

/-- First rewrite of toSentence: add a space around any digit run. -/
def spaceDigits (l : List Char) : List Char := sdAux false l

/-- Second rewrite of toSentence, replace(/([a-z](?=[A-Z]))/g, '$1 '): a
space is inserted after each lower-case letter that is immediately followed
by an upper-case letter (the look-ahead does not consume the upper-case
letter). -/
def spaceCamel : List Char → List Char
  | [] => []
  | [c] => [c]
  | c :: d :: rest =>
    if isLowerC c && isUpperC d then c :: ' ' :: spaceCamel (d :: rest)
    else c :: spaceCamel (d :: rest)

/-- Third rewrite of toSentence, replace(/[^a-zA-Z0-9 ]/g, ' ') on one
character. -/
def cleanChar (c : Char) : Char :=
  if isAlphaC c || isDigitC c || c = ' ' then c else ' '

/-- Third rewrite of toSentence: every character that is not an ASCII
letter, digit or space becomes a space. -/
def cleanNonWord (l : List Char) : List Char := l.map cleanChar

/-- Scanner for replace(/\s+/g, ' '): each maximal whitespace run becomes a
single space.  The flag records whether the previous character was
whitespace. -/
def cwAux : Bool → List Char → List Char
  | _, [] => []
  | prev, c :: rest =>
    if isJsWs c then
      if prev then cwAux true rest else ' ' :: cwAux true rest
    else c :: cwAux false rest

/-- Fourth rewrite of toSentence: collapse whitespace runs to one space. -/
def collapseWs (l : List Char) : List Char := cwAux false l

/-- Half of the rewrite replace(/^ | $/g, ''): remove one leading space. -/
def dropLeadSpace : List Char → List Char
  | [] => []
  | c :: rest => if c = ' ' then rest else c :: rest

/-- Half of the rewrite replace(/^ | $/g, ''): remove one trailing space. -/
def dropTrailSpace : List Char → List Char
  | [] => []
  | [c] => if c = ' ' then [] else [c]
  | c :: d :: rest => c :: dropTrailSpace (d :: rest)

/-- String.prototype.toLowerCase on the ASCII strings reachable here. -/
def lowerStr (l : List Char) : List Char := l.map toLowerC

/-- String.prototype.toUpperCase on the ASCII strings reachable here. -/
def upperStr (l : List Char) : List Char := l.map toUpperC

/-- The ECMAScript GetSubstitution expansion of a replacement string for a
regular expression without capture groups: dollar-dollar is a literal
dollar, dollar-ampersand is the matched text, dollar-backquote (code 96) is
the part of the subject before the match, dollar-apostrophe (code 39) is
the part after the match, and any other dollar sequence is literal. -/
def expandDollar (m before after : List Char) : List Char → List Char
  | [] => []
  | c :: rest =>
    if c = '$' then
      match rest with
      | [] => ['$']
      | d :: rest2 =>
        if d = '$' then '$' :: expandDollar m before after rest2
        else if d = '&' then m ++ expandDollar m before after rest2
        else if d.toNat = 96 then before ++ expandDollar m before after rest2
        else if d.toNat = 39 then after ++ expandDollar m before after rest2
        else '$' :: expandDollar m before after (d :: rest2)
    else c :: expandDollar m before after rest

/-- Scanner for the final rewrite replace(/\s+/g, separator), with full
replacement-string semantics.  bAcc holds (reversed) the subject before the
current position excluding the pending run, runAcc holds (reversed) the
pending whitespace run. -/
def rwGo (sep : List Char) : List Char → List Char → List Char → List Char
  | bAcc, runAcc, [] =>
    if runAcc.isEmpty then []
    else expandDollar runAcc.reverse bAcc.reverse [] sep
  | bAcc, runAcc, c :: rest =>
    if isJsWs c then rwGo sep bAcc (c :: runAcc) rest
    else if runAcc.isEmpty then c :: rwGo sep (c :: bAcc) [] rest
    else
      expandDollar runAcc.reverse bAcc.reverse (c :: rest) sep ++
        c :: rwGo sep (c :: (runAcc ++ bAcc)) [] rest

/-- Final rewrite of toSentence: each maximal whitespace run is replaced by
the expansion of the separator as a replacement string. -/
def replaceWsRuns (sep l : List Char) : List Char := rwGo sep [] [] l

/-- StringUtility.toSentence: the normalizer.  The six rewrites of the
source are applied in order; the trim regex /^ | $/g removes one leading
and one trailing space. -/
def toSentence (str : List Char) (separator : List Char := [' ']) : List Char :=
  replaceWsRuns separator
    (lowerStr (dropLeadSpace (dropTrailSpace (collapseWs
      (cleanNonWord (spaceCamel (spaceDigits str)))))))

/-- Scanner for the rewrite replace(/ (\w)/g, upper-case of group one): a
space followed by a word character is replaced by that character
upper-cased; scanning resumes after the consumed pair. -/
def camelMerge : List Char → List Char
  | [] => []
  | [c] => [c]
  | c :: d :: rest =>
    if c = ' ' && isWordC d then toUpperC d :: camelMerge rest
    else c :: camelMerge (d :: rest)

/-- StringUtility.toCamelCase. -/
def toCamelCase (str : List Char) : List Char := camelMerge (toSentence str)

/-- StringUtility.toPascalCase: replace(/^[a-zA-Z]/, upper-case) on the
camel-case result. -/
def toPascalCase (str : List Char) : List Char :=
  match toCamelCase str with
  | [] => []
  | c :: rest => if isAlphaC c then toUpperC c :: rest else c :: rest

/-- StringUtility.toConstantCase. -/
def toConstantCase (str : List Char) : List Char := upperStr (toSentence str ['_'])

/-- Scanner for the rewrite replace(/\w\S*/g, capitalized segment) of
toTitleCase: each match starts at a word character and extends over all
following non-whitespace; its first character is upper-cased and the rest
lower-cased.  The flag records being inside a match segment. -/
def trAux : Bool → List Char → List Char
  | inSeg, c :: rest =>
    if inSeg then
      if isJsWs c then c :: trAux false rest
      else toLowerC c :: trAux true rest
    else
      if isWordC c then toUpperC c :: trAux true rest
      else c :: trAux false rest
  | _, [] => []

/-- StringUtility.toTitleCase. -/
def toTitleCase (str : List Char) : List Char := trAux false (toSentence str)

/-- StringUtility.toSentenceCase: charAt(0).toUpperCase() concatenated with
substr(1).toLowerCase(). -/
def toSentenceCase (str : List Char) : List Char :=
  upperStr ((toSentence str).take 1) ++ lowerStr ((toSentence str).drop 1)

/-- Modelled from the spec: the module defining CaseConverterEnum is not in
src/ (the source only imports it).  Per the spec it is a closed
string-valued enumeration with fixed variants used purely as a dispatch
key, so each variant is modelled by a distinct string; only distinctness of
the values is relevant to behaviour. -/
def CaseConverterEnum.CamelCase : String := "CamelCase"

def CaseConverterEnum.ConstantCase : String := "ConstantCase"

def CaseConverterEnum.DotCase : String := "DotCase"

def CaseConverterEnum.KebabCase : String := "KebabCase"

def CaseConverterEnum.LowerCase : String := "LowerCase"

def CaseConverterEnum.PascalCase : String := "PascalCase"

def CaseConverterEnum.PathCase : String := "PathCase"

def CaseConverterEnum.SentenceCase : String := "SentenceCase"

def CaseConverterEnum.SnakeCase : String := "SnakeCase"

def CaseConverterEnum.TitleCase : String := "TitleCase"

def CaseConverterEnum.None : String := "None"

/-- The eleven enumerated case-type values. -/
def caseEnumValues : List String :=
  [CaseConverterEnum.CamelCase, CaseConverterEnum.ConstantCase,
   CaseConverterEnum.DotCase, CaseConverterEnum.KebabCase,
   CaseConverterEnum.LowerCase, CaseConverterEnum.PascalCase,
   CaseConverterEnum.PathCase, CaseConverterEnum.SentenceCase,
   CaseConverterEnum.SnakeCase, CaseConverterEnum.TitleCase,
   CaseConverterEnum.None]

/-- StringUtility.toCase: the dispatch switch.  The None arm and the
default arm of the source switch both return the input, so any value other
than the ten renderer keys falls through to the identity. -/
def toCase (str : List Char) (caseType : String) : List Char :=
  if caseType = CaseConverterEnum.CamelCase then toCamelCase str
  else if caseType = CaseConverterEnum.ConstantCase then toConstantCase str
  else if caseType = CaseConverterEnum.DotCase then toSentence str ['.']
  else if caseType = CaseConverterEnum.KebabCase then toSentence str ['-']
  else if caseType = CaseConverterEnum.LowerCase then toSentence str []
  else if caseType = CaseConverterEnum.PascalCase then toPascalCase str
  else if caseType = CaseConverterEnum.PathCase then toSentence str ['/']
  else if caseType = CaseConverterEnum.SentenceCase then toSentenceCase str
  else if caseType = CaseConverterEnum.SnakeCase then toSentence str ['_']
  else if caseType = CaseConverterEnum.TitleCase then toTitleCase str
  else str

/-! Specification-side token structure. -/

/-- Split a string at whitespace, dropping empty pieces: the token sequence
of the conceptual data model. -/
def splitWs : List Char → List (List Char)
  | [] => []
  | c :: rest =>
    if isJsWs c then splitWs rest
    else (c :: rest.takeWhile (fun d => !isJsWs d)) ::
      splitWs (rest.dropWhile (fun d => !isJsWs d))
termination_by l => l.length
decreasing_by
  · simp only [List.length_cons]
    omega
  · simp only [List.length_cons]
    exact Nat.lt_succ_of_le (List.Sublist.length_le (List.dropWhile_sublist _))

/-- The maximal digit runs of a string, in order. -/
def digitRuns : List Char → List (List Char)
  | [] => []
  | c :: rest =>
    if isDigitC c then
      (c :: rest.takeWhile isDigitC) :: digitRuns (rest.dropWhile isDigitC)
    else digitRuns rest
termination_by l => l.length
decreasing_by
  · simp only [List.length_cons]
    exact Nat.lt_succ_of_le (List.Sublist.length_le (List.dropWhile_sublist _))
  · simp only [List.length_cons]
    omega

/-- Join tokens with a separator. -/
def joinSep (sep : List Char) : List (List Char) → List Char
  | [] => []
  | [w] => w
  | w :: w2 :: ws => w ++ sep ++ joinSep sep (w2 :: ws)

/-- Literal replacement of every space character by a separator string. -/
def substSpaces (sep : List Char) : List Char → List Char
  | [] => []
  | c :: rest => (if c = ' ' then sep else [c]) ++ substSpaces sep rest

/-- Upper-case the first character of a token. -/
def capFirst : List Char → List Char
  | [] => []
  | c :: rest => toUpperC c :: rest

/-- Two adjacent characters are separated correctly when no digit touches a
letter. -/
def sepOkB (a b : Char) : Bool := !(isDigitC a && isAlphaC b) && !(isAlphaC a && isDigitC b)

/-- Every adjacent pair of the string satisfies sepOkB: each maximal digit
run is flanked by non-letters, i.e. digit runs are isolated tokens. -/
def pairsOk : List Char → Bool
  | [] => true
  | [_] => true
  | a :: b :: rest => sepOkB a b && pairsOk (b :: rest)

/-- The separator contains no dollar character, so the JavaScript
replacement-string escapes do not fire. -/
def noDollar (l : List Char) : Bool := l.all (fun c => !(c = '$'))

/-- Does the string start with whitespace. -/
def startsWsB : List Char → Bool
  | [] => false
  | c :: _ => isJsWs c

/-- Literal (escape-free) whitespace-run replacement; the flag records a
pending run to flush. -/
def rwFlag (sep : List Char) : Bool → List Char → List Char
  | pending, [] => if pending then sep else []
  | pending, c :: rest =>
    if isJsWs c then rwFlag sep true rest
    else (if pending then sep else []) ++ c :: rwFlag sep false rest

/-! Character-class facts. -/

theorem toNat_ofNat_valid {n : Nat} (h : n < 55296) : (Char.ofNat n).toNat = n := by
  rw [Char.ofNat, dif_pos (Or.inl h)]
  rfl

theorem boolEq_of_iff {a b : Bool} (h : a = true ↔ b = true) : a = b := by
  cases a <;> cases b <;> simp_all

theorem isJsWs_iff {c : Char} :
    isJsWs c = true ↔
      (9 ≤ c.toNat ∧ c.toNat ≤ 13) ∨ c.toNat = 32 ∨ c.toNat = 160 ∨
        c.toNat = 5760 ∨ (8192 ≤ c.toNat ∧ c.toNat ≤ 8202) ∨ c.toNat = 8232 ∨
        c.toNat = 8233 ∨ c.toNat = 8239 ∨ c.toNat = 8287 ∨ c.toNat = 12288 ∨
        c.toNat = 65279 := by
  simp only [isJsWs, Bool.or_eq_true, Bool.and_eq_true, decide_eq_true_eq]
  tauto

theorem isDigitC_iff {c : Char} : isDigitC c = true ↔ 48 ≤ c.toNat ∧ c.toNat ≤ 57 := by
  simp [isDigitC, Bool.and_eq_true, decide_eq_true_eq]

theorem isLowerC_iff {c : Char} : isLowerC c = true ↔ 97 ≤ c.toNat ∧ c.toNat ≤ 122 := by
  simp [isLowerC, Bool.and_eq_true, decide_eq_true_eq]

theorem isUpperC_iff {c : Char} : isUpperC c = true ↔ 65 ≤ c.toNat ∧ c.toNat ≤ 90 := by
  simp [isUpperC, Bool.and_eq_true, decide_eq_true_eq]

theorem isAlphaC_iff {c : Char} :
    isAlphaC c = true ↔ (65 ≤ c.toNat ∧ c.toNat ≤ 90) ∨ (97 ≤ c.toNat ∧ c.toNat ≤ 122) := by
  simp [isAlphaC, isUpperC_iff, isLowerC_iff, Bool.or_eq_true]

theorem isWordC_iff {c : Char} :
    isWordC c = true ↔
      (65 ≤ c.toNat ∧ c.toNat ≤ 90) ∨ (97 ≤ c.toNat ∧ c.toNat ≤ 122) ∨
        (48 ≤ c.toNat ∧ c.toNat ≤ 57) ∨ c.toNat = 95 := by
  simp [isWordC, isAlphaC_iff, isDigitC_iff, Bool.or_eq_true, decide_eq_true_eq]
  tauto

theorem ws_not_digit {c : Char} (h : isJsWs c = true) : isDigitC c = false := by
  rw [isJsWs_iff] at h
  rw [Bool.eq_false_iff, Ne, isDigitC_iff]
  omega

theorem ws_not_alpha {c : Char} (h : isJsWs c = true) : isAlphaC c = false := by
  rw [isJsWs_iff] at h
  rw [Bool.eq_false_iff, Ne, isAlphaC_iff]
  omega

theorem digit_not_ws {c : Char} (h : isDigitC c = true) : isJsWs c = false := by
  rw [isDigitC_iff] at h
  rw [Bool.eq_false_iff, Ne, isJsWs_iff]
  omega

theorem alpha_not_ws {c : Char} (h : isAlphaC c = true) : isJsWs c = false := by
  rw [isAlphaC_iff] at h
  rw [Bool.eq_false_iff, Ne, isJsWs_iff]
  omega

theorem lower_not_digit {c : Char} (h : isLowerC c = true) : isDigitC c = false := by
  rw [isLowerC_iff] at h
  rw [Bool.eq_false_iff, Ne, isDigitC_iff]
  omega

theorem digit_not_alpha {c : Char} (h : isDigitC c = true) : isAlphaC c = false := by
  rw [isDigitC_iff] at h
  rw [Bool.eq_false_iff, Ne, isAlphaC_iff]
  omega

theorem lower_is_alpha {c : Char} (h : isLowerC c = true) : isAlphaC c = true := by
  rw [isLowerC_iff] at h
  rw [isAlphaC_iff]
  omega

theorem toNat_space {c : Char} (h : c = ' ') : c.toNat = 32 := by
  subst h
  rfl

theorem space_toNat {c : Char} (h : c.toNat = 32) : c = ' ' := by
  have hv : (Char.ofNat c.toNat) = Char.ofNat 32 := by rw [h]
  rwa [Char.ofNat_toNat] at hv

theorem ws_space : isJsWs ' ' = true := by decide

theorem toLowerC_toNat (c : Char) :
    (toLowerC c).toNat = if 65 ≤ c.toNat ∧ c.toNat ≤ 90 then c.toNat + 32 else c.toNat := by
  unfold toLowerC
  split
  · rename_i h
    rw [toNat_ofNat_valid (by omega)]
  · rfl

theorem toUpperC_toNat (c : Char) :
    (toUpperC c).toNat = if 97 ≤ c.toNat ∧ c.toNat ≤ 122 then c.toNat - 32 else c.toNat := by
  unfold toUpperC
  split
  · rename_i h
    rw [toNat_ofNat_valid (by omega)]
  · rfl

theorem toLowerC_eq_self {c : Char} (h : ¬(65 ≤ c.toNat ∧ c.toNat ≤ 90)) : toLowerC c = c := by
  unfold toLowerC
  rw [if_neg h]

theorem toLowerC_of_lower {c : Char} (h : isLowerC c = true) : toLowerC c = c := by
  rw [isLowerC_iff] at h
  exact toLowerC_eq_self (by omega)

theorem toLowerC_of_digit {c : Char} (h : isDigitC c = true) : toLowerC c = c := by
  rw [isDigitC_iff] at h
  exact toLowerC_eq_self (by omega)

theorem toLowerC_space : toLowerC ' ' = ' ' := by decide

theorem isLowerC_toLowerC {c : Char} (h : isAlphaC c = true) : isLowerC (toLowerC c) = true := by
  rw [isAlphaC_iff] at h
  rw [isLowerC_iff, toLowerC_toNat]
  split <;> omega

theorem isDigitC_toLowerC (c : Char) : isDigitC (toLowerC c) = isDigitC c := by
  apply boolEq_of_iff
  rw [isDigitC_iff, isDigitC_iff, toLowerC_toNat]
  split <;> omega

theorem isJsWs_toLowerC (c : Char) : isJsWs (toLowerC c) = isJsWs c := by
  apply boolEq_of_iff
  rw [isJsWs_iff, isJsWs_iff, toLowerC_toNat]
  split <;> omega

/-! Generic list helpers. -/

theorem dropWhile_len_le (p : α → Bool) : ∀ l : List α, (l.dropWhile p).length ≤ l.length
  | [] => Nat.le_refl _
  | a :: l => by
    rw [List.dropWhile_cons]
    split
    · exact Nat.le_succ_of_le (dropWhile_len_le p l)
    · exact Nat.le_refl _

/-! Equations and shape facts for the scanners. -/

theorem not_ws_ne_space {c : Char} (hc : isJsWs c = false) : c ≠ ' ' := by
  intro h
  subst h
  exact absurd hc (by decide)

theorem cwAux_nil (b : Bool) : cwAux b [] = [] := rfl

theorem cwAux_false_ws {c : Char} (rest : List Char) (hc : isJsWs c = true) :
    cwAux false (c :: rest) = ' ' :: cwAux true rest := by
  simp [cwAux, hc]

theorem cwAux_true_ws {c : Char} (rest : List Char) (hc : isJsWs c = true) :
    cwAux true (c :: rest) = cwAux true rest := by
  simp [cwAux, hc]

theorem cwAux_nonws (b : Bool) {c : Char} (rest : List Char) (hc : isJsWs c = false) :
    cwAux b (c :: rest) = c :: cwAux false rest := by
  simp [cwAux, hc]

theorem dropTrail_cons_ne {w : List Char} (c : Char) (h : w ≠ []) :
    dropTrailSpace (c :: w) = c :: dropTrailSpace w := by
  cases w with
  | nil => exact absurd rfl h
  | cons d r => rfl

theorem dropTrail_single {c : Char} (h : c ≠ ' ') : dropTrailSpace [c] = [c] := by
  simp [dropTrailSpace, h]

theorem splitWs_nil : splitWs [] = [] := by
  simp [splitWs]

theorem splitWs_ws {c : Char} (rest : List Char) (hc : isJsWs c = true) :
    splitWs (c :: rest) = splitWs rest := by
  rw [splitWs]
  simp [hc]

theorem splitWs_nonws {c : Char} (rest : List Char) (hc : isJsWs c = false) :
    splitWs (c :: rest) =
      (c :: rest.takeWhile (fun d => !isJsWs d)) ::
        splitWs (rest.dropWhile (fun d => !isJsWs d)) := by
  rw [splitWs]
  simp [hc]

theorem joinSep_cons (sep w : List Char) (ws : List (List Char)) :
    joinSep sep (w :: ws) = w ++ (if ws.isEmpty then [] else sep ++ joinSep sep ws) := by
  cases ws with
  | nil => simp [joinSep]
  | cons w2 t => simp [joinSep]

/-- Core shape lemma: trimming the collapsed string yields the tokens joined
by single spaces, with one stray leading space exactly when the input began
with whitespace and has at least one token. -/
theorem dT_cw (z : List Char) :
    dropTrailSpace (cwAux false z) =
      (if startsWsB z && !(splitWs z).isEmpty then [' '] else []) ++
        joinSep [' '] (splitWs z) := by
  induction z with
  | nil => simp [cwAux, dropTrailSpace, splitWs_nil, startsWsB, joinSep]
  | cons c rest ih =>
    cases hc : isJsWs c with
    | true =>
      rw [cwAux_false_ws rest hc, splitWs_ws rest hc]
      cases rest with
      | nil => simp [cwAux, dropTrailSpace, splitWs_nil, startsWsB, joinSep]
      | cons d r0 =>
        cases hd : isJsWs d with
        | true =>
          rw [cwAux_true_ws r0 hd]
          rw [cwAux_false_ws r0 hd, splitWs_ws r0 hd] at ih
          rw [splitWs_ws r0 hd]
          simpa [startsWsB, hc, hd] using ih
        | false =>
          rw [cwAux_nonws true r0 hd]
          rw [cwAux_nonws false r0 hd] at ih
          rw [dropTrail_cons_ne ' ' (by simp)]
          rw [ih, splitWs_nonws r0 hd]
          simp [startsWsB, hc, hd]
    | false =>
      rw [cwAux_nonws false rest hc]
      cases rest with
      | nil =>
        rw [cwAux_nil, dropTrail_single (not_ws_ne_space hc), splitWs_nonws [] hc]
        simp [startsWsB, hc, splitWs_nil, joinSep]
      | cons e r0 =>
        have hne : cwAux false (e :: r0) ≠ [] := by
          cases he : isJsWs e with
          | true => rw [cwAux_false_ws r0 he]; simp
          | false => rw [cwAux_nonws false r0 he]; simp
        rw [dropTrail_cons_ne c hne, ih]
        cases he : isJsWs e with
        | true =>
          rw [splitWs_nonws (e :: r0) hc]
          have htw : (e :: r0).takeWhile (fun d => !isJsWs d) = [] := by
            simp [List.takeWhile_cons, he]
          have hdw : (e :: r0).dropWhile (fun d => !isJsWs d) = e :: r0 := by
            simp [List.dropWhile_cons, he]
          rw [htw, hdw]
          cases hsw : splitWs (e :: r0) with
          | nil => simp [startsWsB, hc, he, hsw, joinSep]
          | cons w2 ws2 => simp [startsWsB, hc, he, hsw, joinSep]
        | false =>
          rw [splitWs_nonws (e :: r0) hc, splitWs_nonws r0 he]
          have htw : (e :: r0).takeWhile (fun d => !isJsWs d) =
              e :: r0.takeWhile (fun d => !isJsWs d) := by
            simp [List.takeWhile_cons, he]
          have hdw : (e :: r0).dropWhile (fun d => !isJsWs d) =
              r0.dropWhile (fun d => !isJsWs d) := by
            simp [List.dropWhile_cons, he]
          rw [htw, hdw]
          cases hsw : splitWs (r0.dropWhile (fun d => !isJsWs d)) with
          | nil => simp [startsWsB, hc, he, hsw, joinSep]
          | cons w2 ws2 => simp [startsWsB, hc, he, hsw, joinSep]

/-! Words produced by splitWs are nonempty and whitespace-free. -/

theorem splitWs_word_shape (z : List Char) :
    ∀ w ∈ splitWs z, w ≠ [] ∧ ∀ c ∈ w, isJsWs c = false := by
  induction z using splitWs.induct with
  | case1 => simp [splitWs_nil]
  | case2 c rest hc ih =>
    rw [splitWs_ws rest hc]
    exact ih
  | case3 c rest hc ih =>
    rw [Bool.not_eq_true] at hc
    rw [splitWs_nonws rest hc]
    intro w hw
    rcases List.mem_cons.mp hw with hw | hw
    · subst hw
      refine ⟨by simp, ?_⟩
      intro d hd
      rcases List.mem_cons.mp hd with hd | hd
      · subst hd
        exact hc
      · have := List.mem_takeWhile_imp hd
        simpa using this
    · exact ih w hw

theorem dropLead_of_head_ne {z : List Char} (h : ∀ c, z.head? = some c → c ≠ ' ') :
    dropLeadSpace z = z := by
  cases z with
  | nil => rfl
  | cons c rest => simp [dropLeadSpace, h c rfl]

/-- Trim of the collapse: exactly the tokens joined by single spaces. -/
theorem trim_collapse (z : List Char) :
    dropLeadSpace (dropTrailSpace (cwAux false z)) = joinSep [' '] (splitWs z) := by
  rw [dT_cw z]
  cases hf : startsWsB z && !(splitWs z).isEmpty with
  | true =>
    simp only [if_pos rfl, List.singleton_append]
    simp [dropLeadSpace]
  | false =>
    rw [show (if (false = true) then ([' '] : List Char) else []) = [] from rfl,
      List.nil_append]
    apply dropLead_of_head_ne
    intro c hcf
    cases hsw : splitWs z with
    | nil => rw [hsw] at hcf; simp [joinSep] at hcf
    | cons w ws =>
      obtain ⟨hne, hchars⟩ := splitWs_word_shape z w (hsw ▸ List.mem_cons_self w ws)
      cases w with
      | nil => exact absurd rfl hne
      | cons c0 t =>
        have hcc : c = c0 := by
          rw [hsw, joinSep_cons] at hcf
          simp only [List.cons_append, List.head?_cons, Option.some.injEq] at hcf
          exact hcf.symm
        subst hcc
        exact not_ws_ne_space (hchars c (List.mem_cons_self c t))

/-! Lower-casing distributes over the space-joined tokens. -/

theorem lowerStr_append (u v : List Char) : lowerStr (u ++ v) = lowerStr u ++ lowerStr v := by
  simp [lowerStr]

theorem lowerStr_joinSep (W : List (List Char)) :
    lowerStr (joinSep [' '] W) = joinSep [' '] (W.map lowerStr) := by
  induction W with
  | nil => rfl
  | cons w ws ih =>
    cases ws with
    | nil => simp [joinSep]
    | cons w2 t =>
      simp only [joinSep, List.map_cons]
      rw [lowerStr_append, lowerStr_append, ih]
      simp [lowerStr, toLowerC_space, joinSep]

/-! The final replace, for separators without dollar escapes, is plain
whitespace-run substitution. -/

theorem expandDollar_noDollar {sep : List Char} (hs : noDollar sep = true)
    (m b a : List Char) : expandDollar m b a sep = sep := by
  induction sep with
  | nil => rfl
  | cons c rest ih =>
    rw [noDollar, List.all_cons, Bool.and_eq_true] at hs
    obtain ⟨hc, hrest⟩ := hs
    have hc2 : c ≠ '$' := by simpa using hc
    have hrec := ih hrest
    rw [expandDollar.eq_def]
    simp only [if_neg hc2, hrec]

theorem rwGo_eq_rwFlag {sep : List Char} (hs : noDollar sep = true) :
    ∀ (z bAcc runAcc : List Char),
      rwGo sep bAcc runAcc z = rwFlag sep (!runAcc.isEmpty) z := by
  intro z
  induction z with
  | nil =>
    intro bAcc runAcc
    cases hr : runAcc.isEmpty with
    | true => simp [rwGo, rwFlag, hr]
    | false => simp [rwGo, rwFlag, hr, expandDollar_noDollar hs]
  | cons c rest ih =>
    intro bAcc runAcc
    cases hc : isJsWs c with
    | true =>
      have h1 : rwGo sep bAcc runAcc (c :: rest) = rwGo sep bAcc (c :: runAcc) rest := by
        simp [rwGo, hc]
      have h2 : rwFlag sep (!runAcc.isEmpty) (c :: rest) = rwFlag sep true rest := by
        simp [rwFlag, hc]
      rw [h1, h2, ih bAcc (c :: runAcc)]
      rfl
    | false =>
      cases hr : runAcc.isEmpty with
      | true =>
        have h1 : rwGo sep bAcc runAcc (c :: rest) = c :: rwGo sep (c :: bAcc) [] rest := by
          simp [rwGo, hc, hr]
        have h2 : rwFlag sep (!true) (c :: rest) = c :: rwFlag sep false rest := by
          simp [rwFlag, hc]
        rw [h1, h2, ih (c :: bAcc) []]
        rfl
      | false =>
        have h1 : rwGo sep bAcc runAcc (c :: rest) =
            expandDollar runAcc.reverse bAcc.reverse (c :: rest) sep ++
              c :: rwGo sep (c :: (runAcc ++ bAcc)) [] rest := by
          simp [rwGo, hc, hr]
        have h2 : rwFlag sep (!false) (c :: rest) =
            sep ++ c :: rwFlag sep false rest := by
          simp [rwFlag, hc]
        rw [h1, h2, ih (c :: (runAcc ++ bAcc)) [], expandDollar_noDollar hs]
        rfl

theorem rwFlag_false_nil (sep : List Char) : rwFlag sep false [] = [] := rfl

theorem rwFlag_nonws_pass (sep : List Char) :
    ∀ (u v : List Char), (∀ c ∈ u, isJsWs c = false) →
      rwFlag sep false (u ++ v) = u ++ rwFlag sep false v := by
  intro u
  induction u with
  | nil => intro v _; rfl
  | cons c u2 ih =>
    intro v hu
    have hc := hu c (List.mem_cons_self c u2)
    have h1 : rwFlag sep false ((c :: u2) ++ v) = c :: rwFlag sep false (u2 ++ v) := by
      simp [rwFlag, hc]
    rw [h1, ih v (fun d hd => hu d (List.mem_cons_of_mem c hd))]
    rfl

theorem rwFlag_true_eq {sep : List Char} {c : Char} (u : List Char)
    (hc : isJsWs c = false) :
    rwFlag sep true (c :: u) = sep ++ rwFlag sep false (c :: u) := by
  simp [rwFlag, hc]

theorem rwFlag_joinSep (sep : List Char) :
    ∀ W : List (List Char), (∀ w ∈ W, w ≠ [] ∧ ∀ c ∈ w, isJsWs c = false) →
      rwFlag sep false (joinSep [' '] W) = joinSep sep W := by
  intro W
  induction W with
  | nil => intro _; rfl
  | cons w ws ih =>
    intro hW
    obtain ⟨hne, hchars⟩ := hW w (List.mem_cons_self w ws)
    cases ws with
    | nil =>
      show rwFlag sep false (joinSep [' '] [w]) = joinSep sep [w]
      simp only [joinSep]
      calc rwFlag sep false w = rwFlag sep false (w ++ []) := by simp
        _ = w ++ rwFlag sep false [] := rwFlag_nonws_pass sep w [] hchars
        _ = w := by simp [rwFlag_false_nil]
    | cons w2 t =>
      obtain ⟨hne2, hchars2⟩ := hW w2 (List.mem_cons_of_mem w (List.mem_cons_self w2 t))
      simp only [joinSep]
      rw [List.append_assoc, rwFlag_nonws_pass sep w _ hchars]
      have hws : rwFlag sep false ([' '] ++ joinSep [' '] (w2 :: t)) =
          rwFlag sep true (joinSep [' '] (w2 :: t)) := by
        simp [rwFlag, ws_space]
      rw [hws]
      cases w2 with
      | nil => exact absurd rfl hne2
      | cons c2 t2 =>
        have hc2 : isJsWs c2 = false := hchars2 c2 (List.mem_cons_self c2 t2)
        have hshape : ∃ u, joinSep [' '] ((c2 :: t2) :: t) = c2 :: u := by
          rw [joinSep_cons]
          exact ⟨t2 ++ (if t.isEmpty then [] else [' '] ++ joinSep [' '] t), by simp⟩
        obtain ⟨u, hu⟩ := hshape
        rw [hu, rwFlag_true_eq u hc2, ← hu]
        rw [ih (fun v hv => hW v (List.mem_cons_of_mem w hv))]
        simp [List.append_assoc]

/-! The main characterization of toSentence for escape-free separators. -/

theorem lowered_words_ok (z : List Char) :
    ∀ w ∈ List.map lowerStr (splitWs z), w ≠ [] ∧ ∀ c ∈ w, isJsWs c = false := by
  intro w hw
  rcases List.mem_map.mp hw with ⟨w0, hw0, rfl⟩
  obtain ⟨hne, hchars⟩ := splitWs_word_shape z w0 hw0
  constructor
  · simp only [lowerStr, Ne, List.map_eq_nil_iff]
    exact hne
  · intro c hc
    rcases List.mem_map.mp hc with ⟨c0, hc0, rfl⟩
    rw [isJsWs_toLowerC]
    exact hchars c0 hc0

/-- toSentence, for a separator without dollar escapes, is exactly: token
split of the boundary-marked string, per-token lower-casing, and re-joining
with the separator. -/
theorem toSentence_eq_join {sep : List Char} (hs : noDollar sep = true) (str : List Char) :
    toSentence str sep =
      joinSep sep (List.map lowerStr (splitWs (cleanNonWord (spaceCamel (spaceDigits str))))) := by
  show rwGo sep [] []
      (lowerStr (dropLeadSpace (dropTrailSpace (cwAux false
        (cleanNonWord (spaceCamel (spaceDigits str))))))) = _
  rw [rwGo_eq_rwFlag hs]
  rw [trim_collapse, lowerStr_joinSep]
  simp only [List.isEmpty_nil, Bool.not_true]
  exact rwFlag_joinSep sep _ (lowered_words_ok _)

/-! Membership and character-class tracking through the pipeline. -/

theorem mem_sdAux : ∀ (z : List Char) (b : Bool), ∀ c ∈ sdAux b z, c ∈ z ∨ c = ' ' := by
  intro z
  induction z with
  | nil =>
    intro b c hc
    cases b with
    | true =>
      simp [sdAux] at hc
      exact Or.inr hc
    | false => simp [sdAux] at hc
  | cons d rest ih =>
    intro b c hc
    have step : ∀ b2, c ∈ sdAux b2 rest → c ∈ d :: rest ∨ c = ' ' := fun b2 hm =>
      (ih b2 c hm).imp (List.mem_cons_of_mem d) id
    cases hd : isDigitC d with
    | true =>
      cases b with
      | true =>
        have heq : sdAux true (d :: rest) = d :: sdAux true rest := by simp [sdAux, hd]
        rw [heq] at hc
        rcases List.mem_cons.mp hc with h | h
        · exact Or.inl (by rw [h]; exact List.mem_cons_self d rest)
        · exact step true h
      | false =>
        have heq : sdAux false (d :: rest) = ' ' :: d :: sdAux true rest := by
          simp [sdAux, hd]
        rw [heq] at hc
        rcases List.mem_cons.mp hc with h | h
        · exact Or.inr h
        · rcases List.mem_cons.mp h with h2 | h2
          · exact Or.inl (by rw [h2]; exact List.mem_cons_self d rest)
          · exact step true h2
    | false =>
      cases b with
      | true =>
        have heq : sdAux true (d :: rest) = ' ' :: d :: sdAux false rest := by
          simp [sdAux, hd]
        rw [heq] at hc
        rcases List.mem_cons.mp hc with h | h
        · exact Or.inr h
        · rcases List.mem_cons.mp h with h2 | h2
          · exact Or.inl (by rw [h2]; exact List.mem_cons_self d rest)
          · exact step false h2
      | false =>
        have heq : sdAux false (d :: rest) = d :: sdAux false rest := by simp [sdAux, hd]
        rw [heq] at hc
        rcases List.mem_cons.mp hc with h | h
        · exact Or.inl (by rw [h]; exact List.mem_cons_self d rest)
        · exact step false h

theorem mem_spaceCamel : ∀ (z : List Char), ∀ c ∈ spaceCamel z, c ∈ z ∨ c = ' ' := by
  intro z
  induction z with
  | nil => intro c hc; simp [spaceCamel] at hc
  | cons d rest ih =>
    intro c hc
    cases rest with
    | nil =>
      simp [spaceCamel] at hc
      simp [hc]
    | cons e r0 =>
      cases hde : isLowerC d && isUpperC e with
      | true =>
        have heq : spaceCamel (d :: e :: r0) = d :: ' ' :: spaceCamel (e :: r0) := by
          simp [spaceCamel, hde]
        rw [heq] at hc
        rcases List.mem_cons.mp hc with h | h
        · exact Or.inl (by rw [h]; exact List.mem_cons_self d _)
        · rcases List.mem_cons.mp h with h2 | h2
          · exact Or.inr h2
          · exact (ih c h2).imp (List.mem_cons_of_mem d) id
      | false =>
        have heq : spaceCamel (d :: e :: r0) = d :: spaceCamel (e :: r0) := by
          simp [spaceCamel, hde]
        rw [heq] at hc
        rcases List.mem_cons.mp hc with h | h
        · exact Or.inl (by rw [h]; exact List.mem_cons_self d _)
        · exact (ih c h).imp (List.mem_cons_of_mem d) id

theorem cleanChar_class (c : Char) :
    isAlphaC (cleanChar c) = true ∨ isDigitC (cleanChar c) = true ∨ cleanChar c = ' ' := by
  unfold cleanChar
  split
  · rename_i h
    rcases Bool.or_eq_true_iff.mp h with h2 | h2
    · rcases Bool.or_eq_true_iff.mp h2 with h3 | h3
      · exact Or.inl h3
      · exact Or.inr (Or.inl h3)
    · exact Or.inr (Or.inr (by simpa using h2))
  · exact Or.inr (Or.inr rfl)

theorem cleanChar_of_nonword {c : Char} (ha : isAlphaC c = false) (hd : isDigitC c = false) :
    cleanChar c = ' ' := by
  unfold cleanChar
  split
  · rename_i h
    rcases Bool.or_eq_true_iff.mp h with h2 | h2
    · rw [ha, hd] at h2
      simp at h2
    · simpa using h2
  · rfl

theorem splitWs_all_ws : ∀ z : List Char, (∀ c ∈ z, isJsWs c = true) → splitWs z = [] := by
  intro z
  induction z with
  | nil => exact fun _ => splitWs_nil
  | cons c rest ih =>
    intro h
    rw [splitWs_ws rest (h c (List.mem_cons_self c rest))]
    exact ih (fun d hd => h d (List.mem_cons_of_mem c hd))

theorem splitWs_word_mem (z : List Char) :
    ∀ w ∈ splitWs z, ∀ c ∈ w, c ∈ z := by
  induction z using splitWs.induct with
  | case1 => simp [splitWs_nil]
  | case2 c rest hc ih =>
    rw [splitWs_ws rest hc]
    intro w hw d hd
    exact List.mem_cons_of_mem c (ih w hw d hd)
  | case3 c rest hc ih =>
    rw [Bool.not_eq_true] at hc
    rw [splitWs_nonws rest hc]
    intro w hw d hd
    rcases List.mem_cons.mp hw with hw | hw
    · subst hw
      rcases List.mem_cons.mp hd with hd | hd
      · exact hd ▸ List.mem_cons_self c rest
      · exact List.mem_cons_of_mem c (List.takeWhile_subset _ hd)
    · exact List.mem_cons_of_mem c (List.dropWhile_subset _ (ih w hw d hd))

/-- Every character of a lowered token of the cleaned string is a lower-case
letter or a digit, and tokens are nonempty. -/
theorem lowered_words_class (z : List Char) :
    ∀ w ∈ List.map lowerStr (splitWs (cleanNonWord z)),
      w ≠ [] ∧ ∀ c ∈ w, isLowerC c = true ∨ isDigitC c = true := by
  intro w hw
  rcases List.mem_map.mp hw with ⟨w0, hw0, rfl⟩
  obtain ⟨hne, hnws⟩ := splitWs_word_shape (cleanNonWord z) w0 hw0
  refine ⟨by simpa [lowerStr] using hne, ?_⟩
  intro c hc
  rcases List.mem_map.mp hc with ⟨c0, hc0, rfl⟩
  have hmem : c0 ∈ cleanNonWord z := splitWs_word_mem (cleanNonWord z) w0 hw0 c0 hc0
  rcases List.mem_map.mp hmem with ⟨d, hd2, hdc⟩
  have hclass := cleanChar_class d
  rw [hdc] at hclass
  rcases hclass with h | h | h
  · exact Or.inl (isLowerC_toLowerC h)
  · rw [isDigitC_toLowerC]
    exact Or.inr h
  · have hct : isJsWs c0 = true := by rw [h]; exact ws_space
    rw [hnws c0 hc0] at hct
    simp at hct

/-- Character classes of the normalized output (space separator): only
lower-case letters, digits and single spaces occur. -/
theorem mem_joinSep : ∀ (sep : List Char) (W : List (List Char)) (c : Char),
    c ∈ joinSep sep W → (∃ w ∈ W, c ∈ w) ∨ c ∈ sep := by
  intro sep W
  induction W with
  | nil => intro c hc; simp [joinSep] at hc
  | cons w ws ih =>
    intro c hc
    cases ws with
    | nil =>
      exact Or.inl ⟨w, List.mem_cons_self w [], by simpa [joinSep] using hc⟩
    | cons w2 t =>
      simp only [joinSep, List.append_assoc, List.mem_append] at hc
      rcases hc with h | h | h
      · exact Or.inl ⟨w, List.mem_cons_self w _, h⟩
      · exact Or.inr h
      · rcases ih c (by simpa [joinSep] using h) with ⟨v, hv, hcv⟩ | h2
        · exact Or.inl ⟨v, List.mem_cons_of_mem w hv, hcv⟩
        · exact Or.inr h2

/-! Space substitution and split-join inversion. -/

theorem substSpaces_append (sep : List Char) :
    ∀ u v : List Char, substSpaces sep (u ++ v) = substSpaces sep u ++ substSpaces sep v := by
  intro u v
  induction u with
  | nil => rfl
  | cons c u2 ih => simp [substSpaces, ih]

theorem substSpaces_nospace (sep : List Char) :
    ∀ u : List Char, (∀ c ∈ u, c ≠ ' ') → substSpaces sep u = u := by
  intro u
  induction u with
  | nil => intro _; rfl
  | cons c u2 ih =>
    intro h
    simp [substSpaces, h c (List.mem_cons_self c u2),
      ih (fun d hd => h d (List.mem_cons_of_mem c hd))]

theorem substSpaces_joinSep (sep : List Char) :
    ∀ W : List (List Char), (∀ w ∈ W, ∀ c ∈ w, c ≠ ' ') →
      substSpaces sep (joinSep [' '] W) = joinSep sep W := by
  intro W
  induction W with
  | nil => intro _; rfl
  | cons w ws ih =>
    intro hW
    cases ws with
    | nil =>
      show substSpaces sep (joinSep [' '] [w]) = joinSep sep [w]
      simp only [joinSep]
      exact substSpaces_nospace sep w (hW w (List.mem_cons_self w []))
    | cons w2 t =>
      simp only [joinSep]
      rw [substSpaces_append, substSpaces_append]
      rw [substSpaces_nospace sep w (hW w (List.mem_cons_self w _))]
      rw [ih (fun v hv => hW v (List.mem_cons_of_mem w hv))]
      simp [substSpaces]

theorem splitWs_append_word (w u : List Char) (hne : w ≠ [])
    (hchars : ∀ c ∈ w, isJsWs c = false)
    (hu : ∀ d, u.head? = some d → isJsWs d = true) :
    splitWs (w ++ u) = w :: splitWs u := by
  cases w with
  | nil => exact absurd rfl hne
  | cons c t =>
    have hc : isJsWs c = false := hchars c (List.mem_cons_self c t)
    have ht : ∀ d ∈ t, (fun d => !isJsWs d) d = true := by
      intro d hd
      simp [hchars d (List.mem_cons_of_mem c hd)]
    have htu : u.takeWhile (fun d => !isJsWs d) = [] := by
      cases u with
      | nil => rfl
      | cons d u2 =>
        rw [List.takeWhile_cons]
        simp [hu d rfl]
    have hdu : u.dropWhile (fun d => !isJsWs d) = u := by
      cases u with
      | nil => rfl
      | cons d u2 =>
        rw [List.dropWhile_cons]
        simp [hu d rfl]
    rw [List.cons_append, splitWs_nonws (t ++ u) hc]
    rw [List.takeWhile_append_of_pos ht, List.dropWhile_append_of_pos ht, htu, hdu]
    simp

theorem splitWs_joinSep :
    ∀ W : List (List Char), (∀ w ∈ W, w ≠ [] ∧ ∀ c ∈ w, isJsWs c = false) →
      splitWs (joinSep [' '] W) = W := by
  intro W
  induction W with
  | nil => intro _; exact splitWs_nil
  | cons w ws ih =>
    intro hW
    obtain ⟨hne, hchars⟩ := hW w (List.mem_cons_self w ws)
    cases ws with
    | nil =>
      show splitWs (joinSep [' '] [w]) = [w]
      simp only [joinSep]
      have := splitWs_append_word w [] hne hchars (by intro d hd; simp at hd)
      simpa [splitWs_nil] using this
    | cons w2 t =>
      simp only [joinSep, List.append_assoc]
      rw [splitWs_append_word w ([' '] ++ joinSep [' '] (w2 :: t)) hne hchars
        (by intro d hd; simp at hd; rw [← hd]; exact ws_space)]
      rw [show ([' '] ++ joinSep [' '] (w2 :: t)) = ' ' :: joinSep [' '] (w2 :: t) from rfl]
      rw [splitWs_ws _ ws_space]
      rw [ih (fun v hv => hW v (List.mem_cons_of_mem w hv))]

/-- The separator-substitution law for separators without dollar escapes. -/
theorem sep_subst_law {s : List Char} (hs : noDollar s = true) (x : List Char) :
    toSentence x s = substSpaces s (toSentence x [' ']) := by
  rw [toSentence_eq_join hs, toSentence_eq_join (by decide : noDollar [' '] = true)]
  refine (substSpaces_joinSep s _ ?_).symm
  intro w hw c hc
  obtain ⟨_, hchars⟩ := lowered_words_ok _ w hw
  exact not_ws_ne_space (hchars c hc)

/-- Character classes of the space-normalized output: only lower-case
letters, digits and spaces occur. -/
theorem toSentence_space_chars (x : List Char) :
    ∀ c ∈ toSentence x [' '], isLowerC c = true ∨ isDigitC c = true ∨ c = ' ' := by
  intro c hc
  rw [toSentence_eq_join (by decide : noDollar [' '] = true) x] at hc
  rcases mem_joinSep [' '] _ c hc with ⟨w, hw, hcw⟩ | h
  · rcases (lowered_words_class _ w hw).2 c hcw with h | h
    · exact Or.inl h
    · exact Or.inr (Or.inl h)
  · simp only [List.mem_singleton] at h
    exact Or.inr (Or.inr h)

/-- C1: on the concrete input livesDown_by-the.River, the camel-case
renderer yields livesDownByTheRiver and the constant-case renderer yields
LIVES_DOWN_BY_THE_RIVER. -/
theorem claimC1 :
    toCase "livesDown_by-the.River".data CaseConverterEnum.CamelCase =
        "livesDownByTheRiver".data ∧
      toCase "livesDown_by-the.River".data CaseConverterEnum.ConstantCase =
        "LIVES_DOWN_BY_THE_RIVER".data :=
  ⟨by decide, by decide⟩

/-- C2 (amended): for every separator containing no dollar character,
normalize(x, s) is normalize(x) with each single boundary space replaced by
s; the enumerated separator renderers (dot, kebab, snake, path, lower,
constant) satisfy the law unconditionally, constant case modulo its
upper-casing transform.  For separators containing dollar characters the
law fails, because the source passes the separator as a JavaScript
replacement string, whose dollar escapes are expanded. -/
theorem claimC2 (x s : List Char) :
    (noDollar s = true → toSentence x s = substSpaces s (toSentence x [' '])) ∧
      toCase x CaseConverterEnum.DotCase = substSpaces ['.'] (toSentence x [' ']) ∧
      toCase x CaseConverterEnum.KebabCase = substSpaces ['-'] (toSentence x [' ']) ∧
      toCase x CaseConverterEnum.SnakeCase = substSpaces ['_'] (toSentence x [' ']) ∧
      toCase x CaseConverterEnum.PathCase = substSpaces ['/'] (toSentence x [' ']) ∧
      toCase x CaseConverterEnum.LowerCase = substSpaces [] (toSentence x [' ']) ∧
      toCase x CaseConverterEnum.ConstantCase =
        upperStr (substSpaces ['_'] (toSentence x [' '])) := by
  refine ⟨fun hs => sep_subst_law hs x, ?_, ?_, ?_, ?_, ?_, ?_⟩
  · exact sep_subst_law (by decide) x
  · exact sep_subst_law (by decide) x
  · exact sep_subst_law (by decide) x
  · exact sep_subst_law (by decide) x
  · exact sep_subst_law (by decide) x
  · exact congrArg upperStr (sep_subst_law (by decide) x)

/-- C2 refuted as stated: for the separator dollar-ampersand, the code
re-inserts the matched space instead of the separator text, so the
substitution reading of the claim fails. -/
theorem claimC2_cex :
    toSentence "a b".data "$&".data ≠
      substSpaces "$&".data (toSentence "a b".data [' ']) := by
  decide

/-- C2 witness: the amended law applied at a concrete input and separator. -/
theorem claimC2_wit :
    noDollar "_".data = true ∧
      toSentence "a b".data "_".data = substSpaces "_".data (toSentence "a b".data [' ']) :=
  ⟨by decide, (claimC2 "a b".data "_".data).1 (by decide)⟩

/-- C5: normalizing the empty string yields the empty string for every
separator, and every input without ASCII letters or digits normalizes to
the empty string. -/
theorem claimC5 :
    (∀ s : List Char, toSentence [] s = []) ∧
      ∀ (x s : List Char), (∀ c ∈ x, isAlphaC c = false ∧ isDigitC c = false) →
        toSentence x s = [] := by
  constructor
  · intro s
    rfl
  · intro x s hx
    have hK : ∀ c ∈ cleanNonWord (spaceCamel (spaceDigits x)), isJsWs c = true := by
      intro c hc
      rcases List.mem_map.mp hc with ⟨d, hd, hdc⟩
      have hd3 : d ∈ x ∨ d = ' ' := by
        rcases mem_spaceCamel _ d hd with h | h
        · exact mem_sdAux x false d h
        · exact Or.inr h
      have hsp : cleanChar d = ' ' := by
        rcases hd3 with h | h
        · exact cleanChar_of_nonword (hx d h).1 (hx d h).2
        · rw [h]
          rfl
      rw [← hdc, hsp]
      exact ws_space
    show rwGo s [] [] (lowerStr (dropLeadSpace (dropTrailSpace (cwAux false
      (cleanNonWord (spaceCamel (spaceDigits x))))))) = []
    rw [trim_collapse, splitWs_all_ws _ hK]
    rfl

/-- C5 witness: a punctuation-only input with a concrete separator. -/
theorem claimC5_wit :
    (∀ c ∈ "?!".data, isAlphaC c = false ∧ isDigitC c = false) ∧
      toSentence "?!".data "//".data = [] :=
  ⟨by decide, claimC5.2 "?!".data "//".data (by decide)⟩

/-- C6: the space-normalized output contains no underscore, hyphen or dot,
and no upper-case letter. -/
theorem claimC6 (x : List Char) :
    ∀ c ∈ toSentence x [' '], c ≠ '_' ∧ c ≠ '-' ∧ c ≠ '.' ∧ isUpperC c = false := by
  intro c hc
  rcases toSentence_space_chars x c hc with h | h | h
  · rw [isLowerC_iff] at h
    refine ⟨?_, ?_, ?_, ?_⟩
    · intro he
      rw [he] at h
      exact absurd h (by decide)
    · intro he
      rw [he] at h
      exact absurd h (by decide)
    · intro he
      rw [he] at h
      exact absurd h (by decide)
    · rw [Bool.eq_false_iff, Ne, isUpperC_iff]
      omega
  · rw [isDigitC_iff] at h
    refine ⟨?_, ?_, ?_, ?_⟩
    · intro he
      rw [he] at h
      exact absurd h (by decide)
    · intro he
      rw [he] at h
      exact absurd h (by decide)
    · intro he
      rw [he] at h
      exact absurd h (by decide)
    · rw [Bool.eq_false_iff, Ne, isUpperC_iff]
      omega
  · rw [h]
    exact ⟨by decide, by decide, by decide, by decide⟩

/-- C6 witness: a concrete character of a concrete normalized output. -/
theorem claimC6_wit :
    ('a' ∈ toSentence "ab".data [' ']) ∧
      ('a' ≠ '_' ∧ 'a' ≠ '-' ∧ 'a' ≠ '.' ∧ isUpperC 'a' = false) :=
  ⟨by decide, claimC6 "ab".data 'a' (by decide)⟩

/-- C7: toCase with the None selector is the identity, and any value
outside the eleven enumerated selectors also returns the input unmodified
(the default arm of the switch). -/
theorem claimC7 :
    (∀ x : List Char, toCase x CaseConverterEnum.None = x) ∧
      ∀ (x : List Char) (t : String), t ∉ caseEnumValues → toCase x t = x := by
  constructor
  · intro x
    rfl
  · intro x t ht
    simp only [caseEnumValues, List.mem_cons, List.not_mem_nil, or_false] at ht
    push_neg at ht
    obtain ⟨h1, h2, h3, h4, h5, h6, h7, h8, h9, h10, h11⟩ := ht
    simp [toCase, h1, h2, h3, h4, h5, h6, h7, h8, h9, h10, h11]

/-- C7 witness: a value outside the enumeration at a concrete input. -/
theorem claimC7_wit :
    ("Bogus" ∉ caseEnumValues) ∧ toCase "q R".data "Bogus" = "q R".data :=
  ⟨by decide, claimC7.2 "q R".data "Bogus" (by decide)⟩

/-- C10: every enumerated case type maps the empty string to the empty
string; in particular the sentence-case and title-case renderers, which
inspect the first character of the normalized string, are total on it. -/
theorem claimC10 : ∀ t ∈ caseEnumValues, toCase [] t = [] := by
  intro t ht
  simp only [caseEnumValues, List.mem_cons, List.not_mem_nil, or_false] at ht
  rcases ht with rfl | rfl | rfl | rfl | rfl | rfl | rfl | rfl | rfl | rfl | rfl <;> rfl

/-- C10 witness: the sentence-case renderer on the empty string. -/
theorem claimC10_wit :
    CaseConverterEnum.SentenceCase ∈ caseEnumValues ∧
      toCase [] CaseConverterEnum.SentenceCase = [] :=
  ⟨by decide, claimC10 CaseConverterEnum.SentenceCase (by decide)⟩

/-! Camel-case token structure. -/

theorem lower_is_word {c : Char} (h : isLowerC c = true) : isWordC c = true := by
  rw [isLowerC_iff] at h
  rw [isWordC_iff]
  omega

theorem digit_is_word {c : Char} (h : isDigitC c = true) : isWordC c = true := by
  rw [isDigitC_iff] at h
  rw [isWordC_iff]
  omega

theorem lower_ne_space {c : Char} (h : isLowerC c = true) : c ≠ ' ' := by
  rw [isLowerC_iff] at h
  intro he
  rw [he] at h
  exact absurd h (by decide)

theorem digit_ne_space {c : Char} (h : isDigitC c = true) : c ≠ ' ' := by
  rw [isDigitC_iff] at h
  intro he
  rw [he] at h
  exact absurd h (by decide)

theorem camelMerge_pass :
    ∀ (w z : List Char), (∀ c ∈ w, c ≠ ' ') → camelMerge (w ++ z) = w ++ camelMerge z := by
  intro w
  induction w with
  | nil => intro z _; rfl
  | cons c w2 ih =>
    intro z hw
    have hc : c ≠ ' ' := hw c (List.mem_cons_self c w2)
    rw [List.cons_append]
    cases hwz : w2 ++ z with
    | nil =>
      rcases List.append_eq_nil.mp hwz with ⟨rfl, rfl⟩
      rfl
    | cons d r =>
      have hcond : (c = ' ' && isWordC d) = false := by
        simp [hc]
      have heq : camelMerge (c :: d :: r) = c :: camelMerge (d :: r) := by
        simp [camelMerge, hcond]
      rw [heq, ← hwz, ih z (fun e he => hw e (List.mem_cons_of_mem c he))]
      rfl

theorem camelMerge_space_word {d : Char} (r : List Char) (hd : isWordC d = true) :
    camelMerge (' ' :: d :: r) = toUpperC d :: camelMerge r := by
  simp [camelMerge, hd]

theorem joinSep_space_flatten :
    ∀ (W : List (List Char)) (w : List Char),
      joinSep [' '] (w :: W) = w ++ (W.map (fun v => ' ' :: v)).flatten := by
  intro W
  induction W with
  | nil => intro w; simp [joinSep]
  | cons w2 t ih =>
    intro w
    rw [show joinSep [' '] (w :: w2 :: t) = w ++ [' '] ++ joinSep [' '] (w2 :: t) from rfl]
    rw [ih w2]
    simp

theorem camelMerge_flatten :
    ∀ W : List (List Char),
      (∀ w ∈ W, w ≠ [] ∧ ∀ c ∈ w, isWordC c = true ∧ c ≠ ' ') →
        camelMerge ((W.map (fun v => ' ' :: v)).flatten) = (W.map capFirst).flatten := by
  intro W
  induction W with
  | nil => intro _; rfl
  | cons w t ih =>
    intro hW
    obtain ⟨hne, hchars⟩ := hW w (List.mem_cons_self w t)
    cases w with
    | nil => exact absurd rfl hne
    | cons d t2 =>
      have hd : isWordC d = true := (hchars d (List.mem_cons_self d t2)).1
      simp only [List.map_cons, List.flatten_cons, List.cons_append]
      rw [camelMerge_space_word _ hd]
      rw [camelMerge_pass t2 _ (fun e he => (hchars e (List.mem_cons_of_mem d he)).2)]
      rw [ih (fun v hv => hW v (List.mem_cons_of_mem _ hv))]
      simp [capFirst]

/-- C9: toCase with CamelCase is the normalizer followed by the
space-plus-word-character merge; equivalently, the first token unchanged
and every later token capitalized and concatenated. -/
theorem claimC9 (x : List Char) :
    toCase x CaseConverterEnum.CamelCase = camelMerge (toSentence x [' ']) ∧
      toCase x CaseConverterEnum.CamelCase =
        (match splitWs (toSentence x [' ']) with
         | [] => []
         | w :: ws => w ++ (ws.map capFirst).flatten) := by
  constructor
  · rfl
  · have hmain := toSentence_eq_join (by decide : noDollar [' '] = true) x
    have hwords := lowered_words_ok (cleanNonWord (spaceCamel (spaceDigits x)))
    have hsplit : splitWs (toSentence x [' ']) =
        List.map lowerStr (splitWs (cleanNonWord (spaceCamel (spaceDigits x)))) := by
      rw [hmain]
      exact splitWs_joinSep _ hwords
    have hclass := lowered_words_class (spaceCamel (spaceDigits x))
    show camelMerge (toSentence x [' ']) = _
    rw [hsplit, hmain]
    cases hW : List.map lowerStr (splitWs (cleanNonWord (spaceCamel (spaceDigits x)))) with
    | nil => rfl
    | cons w ws =>
      have hgood : ∀ v ∈ w :: ws, v ≠ [] ∧ ∀ c ∈ v, isWordC c = true ∧ c ≠ ' ' := by
        intro v hv
        obtain ⟨hne, hcl⟩ := hclass v (hW ▸ hv)
        refine ⟨hne, ?_⟩
        intro c hc
        rcases hcl c hc with h | h
        · exact ⟨lower_is_word h, lower_ne_space h⟩
        · exact ⟨digit_is_word h, digit_ne_space h⟩
      rw [joinSep_space_flatten ws w]
      rw [camelMerge_pass w _ (fun c hc => (((hgood w (List.mem_cons_self w ws)).2) c hc).2)]
      rw [camelMerge_flatten ws (fun v hv => hgood v (List.mem_cons_of_mem w hv))]

/-- C8: toCase with SentenceCase is the normalizer followed by upper-casing
exactly the first character and lower-casing every later character, stated
position by position. -/
theorem claimC8 (x : List Char) (i : Nat) :
    (toCase x CaseConverterEnum.SentenceCase)[i]? =
      ((toSentence x [' '])[i]?).map (fun c => if i = 0 then toUpperC c else toLowerC c) := by
  have hdis : toCase x CaseConverterEnum.SentenceCase =
      upperStr ((toSentence x [' ']).take 1) ++ lowerStr ((toSentence x [' ']).drop 1) := rfl
  rw [hdis]
  cases hs : toSentence x [' '] with
  | nil => simp [upperStr, lowerStr]
  | cons c r =>
    cases i with
    | zero => simp [upperStr, lowerStr]
    | succ j =>
      simp only [List.take_succ_cons, List.take_zero, List.drop_succ_cons, List.drop_zero,
        upperStr, lowerStr, List.map_cons, List.map_nil, List.cons_append, List.nil_append,
        List.getElem?_cons_succ, List.getElem?_map]
      cases r[j]? with
      | none => rfl
      | some d => simp

/-! Run and pass lemmas for the digit-boundary scanner. -/

theorem digit_not_lower {c : Char} (h : isDigitC c = true) : isLowerC c = false := by
  rw [isDigitC_iff] at h
  rw [Bool.eq_false_iff, Ne, isLowerC_iff]
  omega

theorem digit_not_upper {c : Char} (h : isDigitC c = true) : isUpperC c = false := by
  rw [isDigitC_iff] at h
  rw [Bool.eq_false_iff, Ne, isUpperC_iff]
  omega

theorem lower_not_upper {c : Char} (h : isLowerC c = true) : isUpperC c = false := by
  rw [isLowerC_iff] at h
  rw [Bool.eq_false_iff, Ne, isUpperC_iff]
  omega

theorem sdAux_nil_true : sdAux true [] = [' '] := rfl

theorem sdAux_nil_false : sdAux false [] = [] := rfl

theorem sdAux_digit_true {c : Char} (rest : List Char) (hc : isDigitC c = true) :
    sdAux true (c :: rest) = c :: sdAux true rest := by
  simp [sdAux, hc]

theorem sdAux_digit_false {c : Char} (rest : List Char) (hc : isDigitC c = true) :
    sdAux false (c :: rest) = ' ' :: c :: sdAux true rest := by
  simp [sdAux, hc]

theorem sdAux_nondigit_true {c : Char} (rest : List Char) (hc : isDigitC c = false) :
    sdAux true (c :: rest) = ' ' :: c :: sdAux false rest := by
  simp [sdAux, hc]

theorem sdAux_nondigit_false {c : Char} (rest : List Char) (hc : isDigitC c = false) :
    sdAux false (c :: rest) = c :: sdAux false rest := by
  simp [sdAux, hc]

theorem sd_run :
    ∀ (u v : List Char), (∀ c ∈ u, isDigitC c = true) →
      sdAux true (u ++ v) = u ++ sdAux true v := by
  intro u
  induction u with
  | nil => intro v _; rfl
  | cons c u2 ih =>
    intro v hu
    rw [List.cons_append, sdAux_digit_true _ (hu c (List.mem_cons_self c u2))]
    rw [ih v (fun d hd => hu d (List.mem_cons_of_mem c hd))]
    rfl

theorem sd_false_pass :
    ∀ (u v : List Char), (∀ c ∈ u, isDigitC c = false) →
      sdAux false (u ++ v) = u ++ sdAux false v := by
  intro u
  induction u with
  | nil => intro v _; rfl
  | cons c u2 ih =>
    intro v hu
    rw [List.cons_append, sdAux_nondigit_false _ (hu c (List.mem_cons_self c u2))]
    rw [ih v (fun d hd => hu d (List.mem_cons_of_mem c hd))]
    rfl

theorem sd_digit_start :
    ∀ (w v : List Char), w ≠ [] → (∀ c ∈ w, isDigitC c = true) →
      sdAux false (w ++ v) = ' ' :: w ++ sdAux true v := by
  intro w v hne hw
  cases w with
  | nil => exact absurd rfl hne
  | cons c t =>
    rw [List.cons_append, sdAux_digit_false _ (hw c (List.mem_cons_self c t))]
    rw [sd_run t v (fun d hd => hw d (List.mem_cons_of_mem c hd))]
    rfl

/-! Pass lemmas and head preservation for the camel-boundary scanner. -/

theorem sc_head : ∀ (c : Char) (r : List Char), ∃ u, spaceCamel (c :: r) = c :: u := by
  intro c r
  cases r with
  | nil => exact ⟨[], rfl⟩
  | cons d r2 =>
    cases hcd : isLowerC c && isUpperC d with
    | true => exact ⟨' ' :: spaceCamel (d :: r2), by simp [spaceCamel, hcd]⟩
    | false => exact ⟨spaceCamel (d :: r2), by simp [spaceCamel, hcd]⟩

theorem sc_digit_pass :
    ∀ (u v : List Char), (∀ c ∈ u, isDigitC c = true) →
      spaceCamel (u ++ v) = u ++ spaceCamel v := by
  intro u
  induction u with
  | nil => intro v _; rfl
  | cons c u2 ih =>
    intro v hu
    have hc : isLowerC c = false := digit_not_lower (hu c (List.mem_cons_self c u2))
    rw [List.cons_append]
    cases huv : u2 ++ v with
    | nil =>
      rcases List.append_eq_nil.mp huv with ⟨rfl, rfl⟩
      rfl
    | cons d r =>
      have heq : spaceCamel (c :: d :: r) = c :: spaceCamel (d :: r) := by
        simp [spaceCamel, hc]
      rw [heq, ← huv, ih v (fun e he => hu e (List.mem_cons_of_mem c he))]
      rfl

theorem spaceCamel_id :
    ∀ z : List Char, (∀ c ∈ z, isUpperC c = false) → spaceCamel z = z := by
  intro z
  induction z with
  | nil => intro _; rfl
  | cons c rest ih =>
    intro h
    cases rest with
    | nil => rfl
    | cons d r2 =>
      have hd : isUpperC d = false := h d (List.mem_cons_of_mem c (List.mem_cons_self d r2))
      have hcond : (isLowerC c && isUpperC d) = false := by simp [hd]
      have heq : spaceCamel (c :: d :: r2) = c :: spaceCamel (d :: r2) := by
        simp [spaceCamel, hcond]
      rw [heq, ih (fun e he => h e (List.mem_cons_of_mem c he))]

theorem cleanChar_id {c : Char}
    (h : isAlphaC c = true ∨ isDigitC c = true ∨ c = ' ') : cleanChar c = c := by
  unfold cleanChar
  rcases h with h | h | h
  · rw [if_pos (by simp [h])]
  · rw [if_pos (by simp [h])]
  · rw [if_pos (by simp [h])]

theorem cleanNonWord_id :
    ∀ z : List Char, (∀ c ∈ z, isAlphaC c = true ∨ isDigitC c = true ∨ c = ' ') →
      cleanNonWord z = z := by
  intro z
  induction z with
  | nil => intro _; rfl
  | cons c rest ih =>
    intro h
    show cleanChar c :: cleanNonWord rest = c :: rest
    rw [cleanChar_id (h c (List.mem_cons_self c rest))]
    rw [ih (fun e he => h e (List.mem_cons_of_mem c he))]

/-! Digit-letter separation: the chain of adjacent pairs. -/

theorem sepOk_space_right (a : Char) : sepOkB a ' ' = true := by
  simp [sepOkB, show isDigitC ' ' = false from by decide,
    show isAlphaC ' ' = false from by decide]

theorem sepOk_space_left (b : Char) : sepOkB ' ' b = true := by
  simp [sepOkB, show isDigitC ' ' = false from by decide,
    show isAlphaC ' ' = false from by decide]

theorem sepOk_digits {a b : Char} (ha : isDigitC a = true) (hb : isDigitC b = true) :
    sepOkB a b = true := by
  simp [sepOkB, digit_not_alpha ha, digit_not_alpha hb]

theorem sepOk_nondigits {a b : Char} (ha : isDigitC a = false) (hb : isDigitC b = false) :
    sepOkB a b = true := by
  simp [sepOkB, ha, hb]

theorem pairsOk_single (c : Char) : pairsOk [c] = true := rfl

theorem pairsOk_cons_cons (a b : Char) (rest : List Char) :
    pairsOk (a :: b :: rest) = (sepOkB a b && pairsOk (b :: rest)) := rfl

theorem pairsOk_cons_intro {a : Char} {z : List Char}
    (h1 : ∀ b, z.head? = some b → sepOkB a b = true) (h2 : pairsOk z = true) :
    pairsOk (a :: z) = true := by
  cases z with
  | nil => rfl
  | cons b r => simp [pairsOk_cons_cons, h1 b rfl, h2]

theorem pairsOk_tail {a : Char} {z : List Char} (h : pairsOk (a :: z) = true) :
    pairsOk z = true := by
  cases z with
  | nil => rfl
  | cons b r =>
    rw [pairsOk_cons_cons, Bool.and_eq_true] at h
    exact h.2

theorem pairsOk_rel {a b : Char} {rest : List Char}
    (h : pairsOk (a :: b :: rest) = true) : sepOkB a b = true := by
  rw [pairsOk_cons_cons, Bool.and_eq_true] at h
  exact h.1

theorem sd_false_head :
    ∀ (z : List Char) (d : Char), (sdAux false z).head? = some d → isDigitC d = false := by
  intro z d h
  cases z with
  | nil => simp [sdAux] at h
  | cons c rest =>
    cases hc : isDigitC c with
    | true =>
      rw [sdAux_digit_false rest hc] at h
      simp only [List.head?_cons, Option.some.injEq] at h
      rw [← h]
      decide
    | false =>
      rw [sdAux_nondigit_false rest hc] at h
      simp only [List.head?_cons, Option.some.injEq] at h
      rw [← h]
      exact hc

theorem pairs_sd :
    ∀ z : List Char, pairsOk (sdAux false z) = true ∧
      ∀ p : Char, isDigitC p = true → pairsOk (p :: sdAux true z) = true := by
  intro z
  induction z with
  | nil =>
    refine ⟨rfl, fun p hp => ?_⟩
    rw [sdAux_nil_true]
    simp [pairsOk_cons_cons, sepOk_space_right, pairsOk_single]
  | cons c rest ih =>
    cases hc : isDigitC c with
    | true =>
      constructor
      · rw [sdAux_digit_false rest hc]
        exact pairsOk_cons_intro (fun b hb => by
            simp only [List.head?_cons, Option.some.injEq] at hb
            rw [← hb]
            exact sepOk_space_left c)
          (ih.2 c hc)
      · intro p hp
        rw [sdAux_digit_true rest hc]
        exact pairsOk_cons_intro (fun b hb => by
            simp only [List.head?_cons, Option.some.injEq] at hb
            rw [← hb]
            exact sepOk_digits hp hc)
          (ih.2 c hc)
    | false =>
      have hfalse : pairsOk (c :: sdAux false rest) = true :=
        pairsOk_cons_intro (fun b hb => sepOk_nondigits hc (sd_false_head rest b hb)) ih.1
      constructor
      · rw [sdAux_nondigit_false rest hc]
        exact hfalse
      · intro p hp
        rw [sdAux_nondigit_true rest hc]
        refine pairsOk_cons_intro (fun b hb => by
            simp only [List.head?_cons, Option.some.injEq] at hb
            rw [← hb]
            exact sepOk_space_right p) ?_
        exact pairsOk_cons_intro (fun b hb => by
            simp only [List.head?_cons, Option.some.injEq] at hb
            rw [← hb]
            exact sepOk_space_left c)
          hfalse

theorem pairs_sc : ∀ z : List Char, pairsOk z = true → pairsOk (spaceCamel z) = true := by
  intro z
  induction z with
  | nil => intro _; rfl
  | cons d rest ih =>
    intro h
    cases rest with
    | nil => exact pairsOk_single d
    | cons e r2 =>
      have h1 : sepOkB d e = true := pairsOk_rel h
      have ih2 : pairsOk (spaceCamel (e :: r2)) = true := ih (pairsOk_tail h)
      obtain ⟨u, hu⟩ := sc_head e r2
      cases hde : isLowerC d && isUpperC e with
      | true =>
        have heq : spaceCamel (d :: e :: r2) = d :: ' ' :: spaceCamel (e :: r2) := by
          simp [spaceCamel, hde]
        rw [heq, hu]
        refine pairsOk_cons_intro (fun b hb => by
            simp only [List.head?_cons, Option.some.injEq] at hb
            rw [← hb]
            exact sepOk_space_right d) ?_
        refine pairsOk_cons_intro (fun b hb => by
            simp only [List.head?_cons, Option.some.injEq] at hb
            rw [← hb]
            exact sepOk_space_left e) ?_
        rw [← hu]
        exact ih2
      | false =>
        have heq : spaceCamel (d :: e :: r2) = d :: spaceCamel (e :: r2) := by
          simp [spaceCamel, hde]
        rw [heq, hu]
        refine pairsOk_cons_intro (fun b hb => by
            simp only [List.head?_cons, Option.some.injEq] at hb
            rw [← hb]
            exact h1) ?_
        rw [← hu]
        exact ih2

theorem cleanChar_cases (c : Char) : cleanChar c = c ∨ cleanChar c = ' ' := by
  unfold cleanChar
  split
  · exact Or.inl rfl
  · exact Or.inr rfl

theorem sepOk_clean {a b : Char} (h : sepOkB a b = true) :
    sepOkB (cleanChar a) (cleanChar b) = true := by
  rcases cleanChar_cases a with ha | ha <;> rcases cleanChar_cases b with hb | hb <;>
    rw [ha, hb]
  · exact h
  · exact sepOk_space_right a
  · exact sepOk_space_left b
  · exact sepOk_space_left ' '

theorem pairs_clean : ∀ z : List Char, pairsOk z = true → pairsOk (cleanNonWord z) = true := by
  intro z
  induction z with
  | nil => intro _; rfl
  | cons a rest ih =>
    intro h
    cases rest with
    | nil => exact pairsOk_single (cleanChar a)
    | cons b r =>
      show pairsOk (cleanChar a :: cleanChar b :: List.map cleanChar r) = true
      rw [pairsOk_cons_cons, Bool.and_eq_true]
      exact ⟨sepOk_clean (pairsOk_rel h), ih (pairsOk_tail h)⟩

theorem pairsOk_take (p : Char → Bool) :
    ∀ (z : List Char) (c : Char), pairsOk (c :: z) = true →
      pairsOk (c :: z.takeWhile p) = true := by
  intro z
  induction z with
  | nil => intro c _; exact pairsOk_single c
  | cons d r ih =>
    intro c h
    rw [List.takeWhile_cons]
    by_cases hp : p d = true
    · rw [if_pos hp, pairsOk_cons_cons, Bool.and_eq_true]
      exact ⟨pairsOk_rel h, ih d (pairsOk_tail h)⟩
    · rw [if_neg hp]
      exact pairsOk_single c

theorem pairsOk_drop (p : Char → Bool) :
    ∀ z : List Char, pairsOk z = true → pairsOk (z.dropWhile p) = true := by
  intro z
  induction z with
  | nil => intro _; rfl
  | cons c r ih =>
    intro h
    rw [List.dropWhile_cons]
    by_cases hp : p c = true
    · rw [if_pos hp]
      exact ih (pairsOk_tail h)
    · rw [if_neg hp]
      exact h

theorem splitWs_words_pairs :
    ∀ z : List Char, pairsOk z = true → ∀ w ∈ splitWs z, pairsOk w = true := by
  intro z
  induction z using splitWs.induct with
  | case1 => intro _ w hw; rw [splitWs_nil] at hw; simp at hw
  | case2 c rest hc ih =>
    intro h w hw
    rw [splitWs_ws rest hc] at hw
    exact ih (pairsOk_tail h) w hw
  | case3 c rest hc ih =>
    rw [Bool.not_eq_true] at hc
    intro h w hw
    rw [splitWs_nonws rest hc] at hw
    rcases List.mem_cons.mp hw with hw | hw
    · rw [hw]
      exact pairsOk_take _ rest c h
    · exact ih (pairsOk_drop _ rest (pairsOk_tail h)) w hw

theorem word_uniform :
    ∀ w : List Char, pairsOk w = true →
      (∀ c ∈ w, isAlphaC c = true ∨ isDigitC c = true) →
      (∀ c ∈ w, isDigitC c = true) ∨ (∀ c ∈ w, isDigitC c = false) := by
  intro w
  induction w with
  | nil => intro _ _; exact Or.inr (by simp)
  | cons c w2 ih =>
    intro hp hcl
    have htail := ih (pairsOk_tail hp) (fun e he => hcl e (List.mem_cons_of_mem c he))
    cases hc2 : isDigitC c with
    | true =>
      cases w2 with
      | nil =>
        refine Or.inl ?_
        intro e he
        simp only [List.mem_singleton] at he
        rw [he]
        exact hc2
      | cons d r =>
        rcases htail with hall | hfree
        · refine Or.inl ?_
          intro e he
          rcases List.mem_cons.mp he with he | he
          · rw [he]; exact hc2
          · exact hall e he
        · have hdfree : isDigitC d = false := hfree d (List.mem_cons_self d r)
          have hdalpha : isAlphaC d = true := by
            rcases hcl d (List.mem_cons_of_mem c (List.mem_cons_self d r)) with h | h
            · exact h
            · rw [h] at hdfree; simp at hdfree
          have hrel := pairsOk_rel hp
          rw [sepOkB, hc2, hdalpha] at hrel
          simp at hrel
    | false =>
      rcases htail with hall | hfree
      · cases w2 with
        | nil =>
          refine Or.inr ?_
          intro e he
          simp only [List.mem_singleton] at he
          rw [he]
          exact hc2
        | cons d r =>
          have hdall : isDigitC d = true := hall d (List.mem_cons_self d r)
          have hcalpha : isAlphaC c = true := by
            rcases hcl c (List.mem_cons_self c _) with h | h
            · exact h
            · rw [h] at hc2; simp at hc2
          have hrel := pairsOk_rel hp
          rw [sepOkB, hcalpha, hdall] at hrel
          simp at hrel
      · refine Or.inr ?_
        intro e he
        rcases List.mem_cons.mp he with he | he
        · rw [he]; exact hc2
        · exact hfree e he

/-- The tokens of the normalization pipeline are pure: each is entirely
lower-case letters or entirely digits (digit runs are isolated tokens). -/
theorem goodWords (x : List Char) :
    ∀ w ∈ List.map lowerStr (splitWs (cleanNonWord (spaceCamel (spaceDigits x)))),
      w ≠ [] ∧ ((∀ c ∈ w, isLowerC c = true) ∨ (∀ c ∈ w, isDigitC c = true)) := by
  intro w hw
  obtain ⟨hne, hcl⟩ := lowered_words_class (spaceCamel (spaceDigits x)) w hw
  refine ⟨hne, ?_⟩
  rcases List.mem_map.mp hw with ⟨w0, hw0, rfl⟩
  have hK : pairsOk (cleanNonWord (spaceCamel (spaceDigits x))) = true :=
    pairs_clean _ (pairs_sc _ (pairs_sd x).1)
  have hw0p : pairsOk w0 = true := splitWs_words_pairs _ hK w0 hw0
  have hw0cl : ∀ c ∈ w0, isAlphaC c = true ∨ isDigitC c = true := by
    intro c hc
    have hmem : c ∈ cleanNonWord (spaceCamel (spaceDigits x)) :=
      splitWs_word_mem _ w0 hw0 c hc
    rcases List.mem_map.mp hmem with ⟨d, _, hdc⟩
    have hclass := cleanChar_class d
    rw [hdc] at hclass
    rcases hclass with h | h | h
    · exact Or.inl h
    · exact Or.inr h
    · have hws : isJsWs c = true := by rw [h]; exact ws_space
      have := (splitWs_word_shape _ w0 hw0).2 c hc
      rw [this] at hws
      simp at hws
  rcases word_uniform w0 hw0p hw0cl with h | h
  · refine Or.inr ?_
    intro c hc
    rcases List.mem_map.mp hc with ⟨c0, hc0, rfl⟩
    rw [isDigitC_toLowerC]
    exact h c0 hc0
  · refine Or.inl ?_
    intro c hc
    rcases List.mem_map.mp hc with ⟨c0, hc0, rfl⟩
    have hcal : isAlphaC c0 = true := by
      rcases hw0cl c0 hc0 with h2 | h2
      · exact h2
      · rw [h c0 hc0] at h2; simp at h2
    exact isLowerC_toLowerC hcal

/-! Re-normalization of an already normalized string. -/

theorem map_id_of {α : Type} (f : α → α) :
    ∀ l : List α, (∀ a ∈ l, f a = a) → l.map f = l := by
  intro l
  induction l with
  | nil => intro _; rfl
  | cons a l2 ih =>
    intro h
    rw [List.map_cons, h a (List.mem_cons_self a l2),
      ih (fun b hb => h b (List.mem_cons_of_mem a hb))]

theorem lowerStr_id_word {w : List Char}
    (h : (∀ c ∈ w, isLowerC c = true) ∨ (∀ c ∈ w, isDigitC c = true)) : lowerStr w = w := by
  show w.map toLowerC = w
  apply map_id_of
  intro c hc
  rcases h with h | h
  · exact toLowerC_of_lower (h c hc)
  · exact toLowerC_of_digit (h c hc)

theorem goodWord_nonws {w : List Char}
    (h : (∀ c ∈ w, isLowerC c = true) ∨ (∀ c ∈ w, isDigitC c = true)) :
    ∀ c ∈ w, isJsWs c = false := by
  intro c hc
  rcases h with h | h
  · exact alpha_not_ws (lower_is_alpha (h c hc))
  · exact digit_not_ws (h c hc)

theorem joinSep_chars {W : List (List Char)}
    (hW : ∀ w ∈ W, w ≠ [] ∧ ((∀ c ∈ w, isLowerC c = true) ∨ (∀ c ∈ w, isDigitC c = true))) :
    ∀ c ∈ joinSep [' '] W, isLowerC c = true ∨ isDigitC c = true ∨ c = ' ' := by
  intro c hc
  rcases mem_joinSep [' '] W c hc with ⟨w, hw, hcw⟩ | h
  · rcases (hW w hw).2 with hl | hd
    · exact Or.inl (hl c hcw)
    · exact Or.inr (Or.inl (hd c hcw))
  · simp only [List.mem_singleton] at h
    exact Or.inr (Or.inr h)

/-- Splitting the digit-marked rejoin of pure tokens recovers the tokens. -/
theorem splitWs_sd_joinSep :
    ∀ W : List (List Char),
      (∀ w ∈ W, w ≠ [] ∧ ((∀ c ∈ w, isLowerC c = true) ∨ (∀ c ∈ w, isDigitC c = true))) →
      splitWs (spaceDigits (joinSep [' '] W)) = W := by
  intro W
  induction W with
  | nil =>
    intro _
    exact splitWs_nil
  | cons w ws ih =>
    intro hW
    obtain ⟨hne, hcl⟩ := hW w (List.mem_cons_self w ws)
    have hnws : ∀ c ∈ w, isJsWs c = false := goodWord_nonws hcl
    show splitWs (sdAux false (joinSep [' '] (w :: ws))) = w :: ws
    cases ws with
    | nil =>
      rw [show joinSep [' '] [w] = w from rfl]
      rcases hcl with hlow | hdig
      · have h1 : sdAux false w = w := by
          have h2 := sd_false_pass w [] (fun c hc => lower_not_digit (hlow c hc))
          simpa [sdAux_nil_false] using h2
        rw [h1]
        have h2 := splitWs_append_word w [] hne hnws (by intro d hd; simp at hd)
        simpa [splitWs_nil] using h2
      · have h1 : sdAux false (w ++ []) = ' ' :: w ++ sdAux true [] :=
          sd_digit_start w [] hne hdig
        rw [List.append_nil] at h1
        rw [h1, sdAux_nil_true]
        rw [show (' ' :: w ++ [' ']) = ' ' :: (w ++ [' ']) from rfl]
        rw [splitWs_ws _ ws_space]
        rw [splitWs_append_word w [' '] hne hnws
          (by intro d hd; simp only [List.head?_cons, Option.some.injEq] at hd
              rw [← hd]; exact ws_space)]
        rw [splitWs_ws _ ws_space, splitWs_nil]
    | cons w2 t =>
      have hJ : joinSep [' '] (w :: w2 :: t) =
          w ++ (' ' :: joinSep [' '] (w2 :: t)) := by
        rw [show joinSep [' '] (w :: w2 :: t) =
          w ++ [' '] ++ joinSep [' '] (w2 :: t) from rfl]
        simp
      rw [hJ]
      have hIH := ih (fun v hv => hW v (List.mem_cons_of_mem w hv))
      rcases hcl with hlow | hdig
      · rw [sd_false_pass w _ (fun c hc => lower_not_digit (hlow c hc))]
        rw [sdAux_nondigit_false _ (by decide : isDigitC ' ' = false)]
        rw [splitWs_append_word w _ hne hnws
          (by intro d hd; simp only [List.head?_cons, Option.some.injEq] at hd
              rw [← hd]; exact ws_space)]
        rw [splitWs_ws _ ws_space]
        exact congrArg (w :: ·) hIH
      · rw [sd_digit_start w _ hne hdig]
        rw [sdAux_nondigit_true _ (by decide : isDigitC ' ' = false)]
        rw [show (' ' :: w ++ ' ' :: ' ' :: sdAux false (joinSep [' '] (w2 :: t))) =
          ' ' :: (w ++ ' ' :: ' ' :: sdAux false (joinSep [' '] (w2 :: t))) from rfl]
        rw [splitWs_ws _ ws_space]
        rw [splitWs_append_word w _ hne hnws
          (by intro d hd; simp only [List.head?_cons, Option.some.injEq] at hd
              rw [← hd]; exact ws_space)]
        rw [splitWs_ws _ ws_space, splitWs_ws _ ws_space]
        exact congrArg (w :: ·) hIH

/-- Normalizing a space-joined list of pure tokens is the identity. -/
theorem toSentence_of_good (W : List (List Char))
    (hW : ∀ w ∈ W, w ≠ [] ∧ ((∀ c ∈ w, isLowerC c = true) ∨ (∀ c ∈ w, isDigitC c = true))) :
    toSentence (joinSep [' '] W) [' '] = joinSep [' '] W := by
  have hchars := joinSep_chars hW
  have hsd : ∀ c ∈ spaceDigits (joinSep [' '] W),
      isLowerC c = true ∨ isDigitC c = true ∨ c = ' ' := by
    intro c hc
    rcases mem_sdAux (joinSep [' '] W) false c hc with h | h
    · exact hchars c h
    · exact Or.inr (Or.inr h)
  have hsc : spaceCamel (spaceDigits (joinSep [' '] W)) = spaceDigits (joinSep [' '] W) := by
    apply spaceCamel_id
    intro c hc
    rcases hsd c hc with h | h | h
    · exact lower_not_upper h
    · exact digit_not_upper h
    · rw [h]; decide
  have hcln : cleanNonWord (spaceDigits (joinSep [' '] W)) =
      spaceDigits (joinSep [' '] W) := by
    apply cleanNonWord_id
    intro c hc
    rcases hsd c hc with h | h | h
    · exact Or.inl (lower_is_alpha h)
    · exact Or.inr (Or.inl h)
    · exact Or.inr (Or.inr h)
  rw [toSentence_eq_join (by decide : noDollar [' '] = true)]
  rw [hsc, hcln]
  rw [splitWs_sd_joinSep W hW]
  rw [map_id_of lowerStr W (fun w hw => lowerStr_id_word (hW w hw).2)]

/-- C3 (amended): normalization with the default space separator is
idempotent. -/
theorem claimC3 (x : List Char) :
    toSentence (toSentence x [' ']) [' '] = toSentence x [' '] := by
  rw [toSentence_eq_join (by decide : noDollar [' '] = true) x]
  exact toSentence_of_good _ (goodWords x)

/-- C3 refuted as stated: idempotence fails for the separator X, because
normalization re-splits at the upper-case letter the first pass inserted. -/
theorem claimC3_cex :
    toSentence (toSentence "ab cd".data "X".data) "X".data ≠
      toSentence "ab cd".data "X".data := by
  decide

/-! Digit-run preservation through the pipeline. -/

theorem digitRuns_nil : digitRuns [] = [] := by
  simp [digitRuns]

theorem digitRuns_digit {c : Char} (rest : List Char) (hc : isDigitC c = true) :
    digitRuns (c :: rest) =
      (c :: rest.takeWhile isDigitC) :: digitRuns (rest.dropWhile isDigitC) := by
  rw [digitRuns]
  simp [hc]

theorem digitRuns_nondigit {c : Char} (rest : List Char) (hc : isDigitC c = false) :
    digitRuns (c :: rest) = digitRuns rest := by
  rw [digitRuns]
  simp [hc]

theorem tw_dw_stop {p : Char → Bool} {v : List Char}
    (hv : ∀ d, v.head? = some d → p d = false) :
    v.takeWhile p = [] ∧ v.dropWhile p = v := by
  cases v with
  | nil => exact ⟨rfl, rfl⟩
  | cons d v2 =>
    constructor
    · rw [List.takeWhile_cons, if_neg (by simp [hv d rfl])]
    · rw [List.dropWhile_cons, if_neg (by simp [hv d rfl])]

theorem dropWhile_head_false (p : Char → Bool) :
    ∀ (z : List Char) (d : Char), (z.dropWhile p).head? = some d → p d = false := by
  intro z
  induction z with
  | nil => intro d hd; simp at hd
  | cons c r ih =>
    intro d hd
    rw [List.dropWhile_cons] at hd
    by_cases hp : p c = true
    · rw [if_pos hp] at hd
      exact ih d hd
    · rw [if_neg hp] at hd
      simp only [List.head?_cons, Option.some.injEq] at hd
      rw [← hd, ← Bool.not_eq_true]
      exact hp

theorem tw_append_stop {p : Char → Bool} {v : List Char}
    (hv : ∀ d, v.head? = some d → p d = false) :
    ∀ u : List Char, (u ++ v).takeWhile p = u.takeWhile p := by
  intro u
  induction u with
  | nil =>
    simp only [List.nil_append, List.takeWhile_nil]
    exact (tw_dw_stop hv).1
  | cons e r2 ih =>
    rw [List.cons_append, List.takeWhile_cons, List.takeWhile_cons]
    by_cases he : p e = true
    · rw [if_pos he, if_pos he, ih]
    · rw [if_neg he, if_neg he]

theorem dw_append_stop {p : Char → Bool} {v : List Char}
    (hv : ∀ d, v.head? = some d → p d = false) :
    ∀ u : List Char, (u ++ v).dropWhile p = u.dropWhile p ++ v := by
  intro u
  induction u with
  | nil =>
    simp only [List.nil_append, List.dropWhile_nil]
    exact (tw_dw_stop hv).2
  | cons e r2 ih =>
    rw [List.cons_append, List.dropWhile_cons, List.dropWhile_cons]
    by_cases he : p e = true
    · rw [if_pos he, if_pos he, ih]
    · rw [if_neg he, if_neg he, List.cons_append]

theorem dR_append {v : List Char} (hv : ∀ d, v.head? = some d → isDigitC d = false) :
    ∀ u : List Char, digitRuns (u ++ v) = digitRuns u ++ digitRuns v := by
  intro u
  induction u using digitRuns.induct with
  | case1 => simp [digitRuns_nil]
  | case2 c rest hc ih =>
    rw [List.cons_append, digitRuns_digit _ hc, digitRuns_digit _ hc]
    rw [tw_append_stop hv rest, dw_append_stop hv rest, ih]
    rfl
  | case3 c rest hc ih =>
    rw [Bool.not_eq_true] at hc
    rw [List.cons_append, digitRuns_nondigit _ hc, digitRuns_nondigit _ hc]
    exact ih

theorem sdAux_true_eq_space {r : List Char}
    (hr : ∀ d, r.head? = some d → isDigitC d = false) :
    sdAux true r = ' ' :: sdAux false r := by
  cases r with
  | nil => rfl
  | cons e r2 => rw [sdAux_nondigit_true r2 (hr e rfl), sdAux_nondigit_false r2 (hr e rfl)]

theorem dR_sd : ∀ z : List Char, digitRuns (sdAux false z) = digitRuns z := by
  intro z
  induction z using digitRuns.induct with
  | case1 => rfl
  | case2 c rest hc ih =>
    have hr : ∀ d, (rest.dropWhile isDigitC).head? = some d → isDigitC d = false :=
      fun d hd => dropWhile_head_false isDigitC rest d hd
    have hX : sdAux true (rest.dropWhile isDigitC) =
        ' ' :: sdAux false (rest.dropWhile isDigitC) := sdAux_true_eq_space hr
    have h1 : sdAux true rest =
        rest.takeWhile isDigitC ++ sdAux true (rest.dropWhile isDigitC) := by
      have h2 := sd_run (rest.takeWhile isDigitC) (rest.dropWhile isDigitC)
        (fun c2 hc2 => List.mem_takeWhile_imp hc2)
      rw [List.takeWhile_append_dropWhile] at h2
      exact h2
    rw [sdAux_digit_false rest hc]
    rw [digitRuns_nondigit _ (by decide : isDigitC ' ' = false)]
    rw [digitRuns_digit _ hc, digitRuns_digit _ hc]
    rw [h1, hX]
    rw [List.takeWhile_append_of_pos (fun c2 hc2 => List.mem_takeWhile_imp hc2)]
    rw [List.dropWhile_append_of_pos (fun c2 hc2 => List.mem_takeWhile_imp hc2)]
    have htw0 : List.takeWhile isDigitC (' ' :: sdAux false (rest.dropWhile isDigitC)) = [] := by
      rw [List.takeWhile_cons, if_neg (by decide)]
    have hdw0 : List.dropWhile isDigitC (' ' :: sdAux false (rest.dropWhile isDigitC)) =
        ' ' :: sdAux false (rest.dropWhile isDigitC) := by
      rw [List.dropWhile_cons, if_neg (by decide)]
    rw [htw0, hdw0]
    rw [digitRuns_nondigit _ (by decide : isDigitC ' ' = false)]
    rw [ih, List.append_nil]
  | case3 c rest hc ih =>
    rw [Bool.not_eq_true] at hc
    rw [sdAux_nondigit_false rest hc, digitRuns_nondigit _ hc, digitRuns_nondigit _ hc]
    exact ih

theorem dR_sc : ∀ z : List Char, digitRuns (spaceCamel z) = digitRuns z := by
  intro z
  induction z using digitRuns.induct with
  | case1 => rfl
  | case2 c rest hc ih =>
    have h1 : spaceCamel ((c :: rest.takeWhile isDigitC) ++ rest.dropWhile isDigitC) =
        (c :: rest.takeWhile isDigitC) ++ spaceCamel (rest.dropWhile isDigitC) := by
      apply sc_digit_pass
      intro c2 hc2
      rcases List.mem_cons.mp hc2 with h | h
      · rw [h]; exact hc
      · exact List.mem_takeWhile_imp h
    have h2 : (c :: rest.takeWhile isDigitC) ++ rest.dropWhile isDigitC = c :: rest := by
      rw [List.cons_append, List.takeWhile_append_dropWhile]
    rw [h2] at h1
    rw [h1, List.cons_append]
    rw [digitRuns_digit _ hc, digitRuns_digit _ hc]
    have hr_stop : ∀ d, (spaceCamel (rest.dropWhile isDigitC)).head? = some d →
        isDigitC d = false := by
      cases hrr : rest.dropWhile isDigitC with
      | nil => intro d hd; simp [spaceCamel] at hd
      | cons e r2 =>
        obtain ⟨u, hu⟩ := sc_head e r2
        intro d hd
        rw [hu] at hd
        simp only [List.head?_cons, Option.some.injEq] at hd
        rw [← hd]
        exact dropWhile_head_false isDigitC rest e (by rw [hrr]; rfl)
    obtain ⟨htw0, hdw0⟩ := tw_dw_stop hr_stop
    rw [List.takeWhile_append_of_pos (fun c2 hc2 => List.mem_takeWhile_imp hc2)]
    rw [List.dropWhile_append_of_pos (fun c2 hc2 => List.mem_takeWhile_imp hc2)]
    rw [htw0, hdw0, ih, List.append_nil]
  | case3 c rest hc ih =>
    rw [Bool.not_eq_true] at hc
    cases rest with
    | nil => rfl
    | cons d r2 =>
      cases hcd : isLowerC c && isUpperC d with
      | true =>
        have heq : spaceCamel (c :: d :: r2) = c :: ' ' :: spaceCamel (d :: r2) := by
          simp [spaceCamel, hcd]
        rw [heq, digitRuns_nondigit _ hc, digitRuns_nondigit _ (by decide : isDigitC ' ' = false)]
        rw [digitRuns_nondigit _ hc]
        exact ih
      | false =>
        have heq : spaceCamel (c :: d :: r2) = c :: spaceCamel (d :: r2) := by
          simp [spaceCamel, hcd]
        rw [heq, digitRuns_nondigit _ hc, digitRuns_nondigit _ hc]
        exact ih

theorem tw_dw_map {f : Char → Char} (hf : ∀ c, isDigitC (f c) = isDigitC c) :
    ∀ l : List Char, (l.map f).takeWhile isDigitC = (l.takeWhile isDigitC).map f ∧
      (l.map f).dropWhile isDigitC = (l.dropWhile isDigitC).map f := by
  intro l
  induction l with
  | nil => exact ⟨rfl, rfl⟩
  | cons c l2 ih =>
    rw [List.map_cons]
    constructor
    · rw [List.takeWhile_cons, List.takeWhile_cons, hf c]
      by_cases hc : isDigitC c = true
      · rw [if_pos hc, if_pos hc, List.map_cons, ih.1]
      · rw [if_neg hc, if_neg hc]
        rfl
    · rw [List.dropWhile_cons, List.dropWhile_cons, hf c]
      by_cases hc : isDigitC c = true
      · rw [if_pos hc, if_pos hc, ih.2]
      · rw [if_neg hc, if_neg hc, List.map_cons]

theorem dR_map {f : Char → Char} (hf1 : ∀ c, isDigitC (f c) = isDigitC c)
    (hf2 : ∀ c, isDigitC c = true → f c = c) :
    ∀ z : List Char, digitRuns (z.map f) = digitRuns z := by
  intro z
  induction z using digitRuns.induct with
  | case1 => rfl
  | case2 c rest hc ih =>
    rw [List.map_cons, hf2 c hc]
    rw [digitRuns_digit _ hc, digitRuns_digit _ hc]
    rw [(tw_dw_map hf1 rest).1, (tw_dw_map hf1 rest).2]
    rw [map_id_of f _ (fun c2 hc2 => hf2 c2 (List.mem_takeWhile_imp hc2))]
    rw [ih]
  | case3 c rest hc ih =>
    rw [Bool.not_eq_true] at hc
    rw [List.map_cons, digitRuns_nondigit _ (by rw [hf1 c]; exact hc),
      digitRuns_nondigit _ hc]
    exact ih

theorem splitWs_nil_all_ws :
    ∀ z : List Char, splitWs z = [] → ∀ c ∈ z, isJsWs c = true := by
  intro z
  induction z using splitWs.induct with
  | case1 => intro _ c hc; simp at hc
  | case2 c rest hc ih =>
    rw [splitWs_ws rest hc]
    intro h d hd
    rcases List.mem_cons.mp hd with hd | hd
    · rw [hd]; exact hc
    · exact ih h d hd
  | case3 c rest hc ih =>
    rw [Bool.not_eq_true] at hc
    rw [splitWs_nonws rest hc]
    intro h
    simp at h

theorem dR_all_nondigit :
    ∀ z : List Char, (∀ c ∈ z, isDigitC c = false) → digitRuns z = [] := by
  intro z
  induction z with
  | nil => intro _; exact digitRuns_nil
  | cons c rest ih =>
    intro h
    rw [digitRuns_nondigit _ (h c (List.mem_cons_self c rest))]
    exact ih (fun d hd => h d (List.mem_cons_of_mem c hd))

theorem dR_join_split :
    ∀ z : List Char, digitRuns (joinSep [' '] (splitWs z)) = digitRuns z := by
  intro z
  induction z using splitWs.induct with
  | case1 => rw [splitWs_nil]; rfl
  | case2 c rest hc ih =>
    rw [splitWs_ws rest hc, ih, digitRuns_nondigit _ (ws_not_digit hc)]
  | case3 c rest hc ih =>
    rw [Bool.not_eq_true] at hc
    rw [splitWs_nonws rest hc]
    have hrhead : ∀ d, (rest.dropWhile (fun d => !isJsWs d)).head? = some d →
        isDigitC d = false := by
      intro d hd
      have := dropWhile_head_false (fun d => !isJsWs d) rest d hd
      simp only [Bool.not_eq_false'] at this
      exact ws_not_digit this
    have hsplit : c :: rest =
        (c :: rest.takeWhile (fun d => !isJsWs d)) ++ rest.dropWhile (fun d => !isJsWs d) := by
      rw [List.cons_append, List.takeWhile_append_dropWhile]
    have hRHS : digitRuns (c :: rest) =
        digitRuns (c :: rest.takeWhile (fun d => !isJsWs d)) ++
          digitRuns (rest.dropWhile (fun d => !isJsWs d)) := by
      conv_lhs => rw [hsplit]
      exact dR_append hrhead _
    rw [hRHS]
    cases hsw : splitWs (rest.dropWhile (fun d => !isJsWs d)) with
    | nil =>
      rw [show joinSep [' ']
        [c :: rest.takeWhile (fun d => !isJsWs d)] =
          c :: rest.takeWhile (fun d => !isJsWs d) from rfl]
      have hallws := splitWs_nil_all_ws _ hsw
      rw [dR_all_nondigit _ (fun d hd => ws_not_digit (hallws d hd)), List.append_nil]
    | cons w2 ws2 =>
      rw [show joinSep [' ']
        ((c :: rest.takeWhile (fun d => !isJsWs d)) :: w2 :: ws2) =
          (c :: rest.takeWhile (fun d => !isJsWs d)) ++ [' '] ++ joinSep [' '] (w2 :: ws2)
        from rfl]
      rw [List.append_assoc]
      rw [show ([' '] ++ joinSep [' '] (w2 :: ws2)) = ' ' :: joinSep [' '] (w2 :: ws2) from rfl]
      rw [dR_append (by
        intro d hd
        simp only [List.head?_cons, Option.some.injEq] at hd
        rw [← hd]
        decide)]
      rw [digitRuns_nondigit _ (by decide : isDigitC ' ' = false)]
      rw [← hsw, ih]

/-! Adjacent-pair separation of the normalized output. -/

theorem pairsOk_uniform_digit :
    ∀ w : List Char, (∀ c ∈ w, isDigitC c = true) → pairsOk w = true := by
  intro w
  induction w with
  | nil => intro _; rfl
  | cons a w2 ih =>
    intro h
    cases w2 with
    | nil => exact pairsOk_single a
    | cons b r =>
      rw [pairsOk_cons_cons, Bool.and_eq_true]
      refine ⟨sepOk_digits (h a (List.mem_cons_self a _))
        (h b (List.mem_cons_of_mem a (List.mem_cons_self b r))), ?_⟩
      exact ih (fun d hd => h d (List.mem_cons_of_mem a hd))

theorem pairsOk_uniform_nondigit :
    ∀ w : List Char, (∀ c ∈ w, isDigitC c = false) → pairsOk w = true := by
  intro w
  induction w with
  | nil => intro _; rfl
  | cons a w2 ih =>
    intro h
    cases w2 with
    | nil => exact pairsOk_single a
    | cons b r =>
      rw [pairsOk_cons_cons, Bool.and_eq_true]
      refine ⟨sepOk_nondigits (h a (List.mem_cons_self a _))
        (h b (List.mem_cons_of_mem a (List.mem_cons_self b r))), ?_⟩
      exact ih (fun d hd => h d (List.mem_cons_of_mem a hd))

theorem pairsOk_append_space :
    ∀ u v : List Char, pairsOk u = true → pairsOk v = true →
      pairsOk (u ++ ' ' :: v) = true := by
  intro u
  induction u with
  | nil =>
    intro v _ pv
    show pairsOk (' ' :: v) = true
    exact pairsOk_cons_intro (fun b hb => sepOk_space_left b) pv
  | cons a u2 ih =>
    intro v pu pv
    cases u2 with
    | nil =>
      show pairsOk (a :: ' ' :: v) = true
      refine pairsOk_cons_intro (fun b hb => by
          simp only [List.head?_cons, Option.some.injEq] at hb
          rw [← hb]
          exact sepOk_space_right a) ?_
      exact pairsOk_cons_intro (fun b hb => sepOk_space_left b) pv
    | cons b u3 =>
      rw [List.cons_append, List.cons_append, pairsOk_cons_cons, Bool.and_eq_true]
      exact ⟨pairsOk_rel pu, ih v (pairsOk_tail pu) pv⟩

theorem pairsOk_joinSep_good :
    ∀ W : List (List Char),
      (∀ w ∈ W, w ≠ [] ∧ ((∀ c ∈ w, isLowerC c = true) ∨ (∀ c ∈ w, isDigitC c = true))) →
      pairsOk (joinSep [' '] W) = true := by
  intro W
  induction W with
  | nil => intro _; rfl
  | cons w ws ih =>
    intro hW
    have hword : pairsOk w = true := by
      rcases (hW w (List.mem_cons_self w ws)).2 with hl | hd
      · exact pairsOk_uniform_nondigit w (fun c hc => lower_not_digit (hl c hc))
      · exact pairsOk_uniform_digit w hd
    cases ws with
    | nil => exact hword
    | cons w2 t =>
      rw [show joinSep [' '] (w :: w2 :: t) = w ++ [' '] ++ joinSep [' '] (w2 :: t) from rfl]
      rw [List.append_assoc]
      rw [show ([' '] ++ joinSep [' '] (w2 :: t)) = ' ' :: joinSep [' '] (w2 :: t) from rfl]
      exact pairsOk_append_space w _ hword (ih (fun v hv => hW v (List.mem_cons_of_mem w hv)))

/-- C4: normalization preserves the maximal digit runs of the input exactly
(never splitting a run digit-by-digit, never merging runs), keeps each run
isolated from letters in the output, and on the concrete input abc123def
produces abc 123 def. -/
theorem claimC4 :
    (∀ x : List Char, digitRuns (toSentence x [' ']) = digitRuns x ∧
        pairsOk (toSentence x [' ']) = true) ∧
      toSentence "abc123def".data [' '] = "abc 123 def".data := by
  constructor
  · intro x
    have hmain := toSentence_eq_join (by decide : noDollar [' '] = true) x
    constructor
    · rw [hmain, ← lowerStr_joinSep]
      rw [show lowerStr (joinSep [' ']
        (splitWs (cleanNonWord (spaceCamel (spaceDigits x))))) =
          (joinSep [' ']
            (splitWs (cleanNonWord (spaceCamel (spaceDigits x))))).map toLowerC from rfl]
      rw [dR_map isDigitC_toLowerC (fun c hc => toLowerC_of_digit hc)]
      rw [dR_join_split]
      rw [show cleanNonWord (spaceCamel (spaceDigits x)) =
        (spaceCamel (spaceDigits x)).map cleanChar from rfl]
      have hcd : ∀ c, isDigitC (cleanChar c) = isDigitC c := by
        intro c
        unfold cleanChar
        split
        · rfl
        · rename_i h
          simp only [Bool.or_eq_true, not_or, Bool.not_eq_true] at h
          rw [h.1.2]
          decide
      rw [dR_map hcd (fun c hc => cleanChar_id (Or.inr (Or.inl hc)))]
      rw [dR_sc]
      rw [show spaceDigits x = sdAux false x from rfl]
      exact dR_sd x
    · rw [hmain]
      exact pairsOk_joinSep_good _ (goodWords x)
  · decide
